import Mathlib

/-!
Verification of the constraint-propagation Sudoku solver
(Peter Norvig's algorithm, C++ adaptation).

The embedding mirrors the C++ source:
* `Possible` is the per-cell candidate set (`vector<bool> _b`, digit `i`
  stored at index `i-1`); `Possible.is_on`, `Possible.count`,
  `Possible.eliminate`, `Possible.val` translate the members of class
  `Possible`.
* the static topology `_group` / `_groups_of` / `_neighbors` is built by
  the same double loop as `Sudoku::init` (`topoFold`); the unfolded list
  literals `groupCells` / `groupsOfL` / `neighborsOf` are proved equal to
  the fold (`groupCells_faithful`, …) and used everywhere else.
* `assignF` / `eliminateF` translate the mutually recursive
  `Sudoku::assign` / `Sudoku::eliminate`. C++ mutates `_cells` in place
  and returns a `bool`; the embedding passes the board and returns
  `some (flag, board)`. The extra `Nat` is fuel: `none` means the fuel ran
  out, and the termination theorem shows fuel `2 * totalCount b + 3` never
  runs out, so the fueled functions are total on the source's domain.
* `least_count`, `is_solved`, `solveF`/`solveLoop` (the `solve` driver) and
  `parseChars` (the `Sudoku(string)` constructor) complete the picture.

Machine integers are modelled as `Nat`/`Int` (no overflow is reachable:
all quantities stay far below 2^31). Out-of-range vector indexing is
undefined behaviour in the C++; the embedding concretizes it benignly via
`List.getD` (reads give `false`/`[]`, writes are dropped), which is only
ever exercised outside the source's real domain.
-/

namespace Sudoku2

/-! ## CandidateSet: class Possible -/

/-- `vector<bool> _b` of class `Possible`: digit `i` is stored at index `i-1`. -/
abbrev Possible := List Bool

/-- `Possible() : _b(9, true)` — all nine digits on. -/
def Possible.full : Possible := List.replicate 9 true

/-- `bool is_on(int i) const { return _b[i-1]; }` -/
def Possible.is_on (p : Possible) (i : Nat) : Bool := p.getD (i - 1) false

/-- `int count() const { return std::count(_b.begin(), _b.end(), true); }` -/
def Possible.count (p : Possible) : Nat := List.count true p

/-- `void eliminate(int i) { _b[i-1] = false; }` -/
def Possible.eliminate (p : Possible) (i : Nat) : Possible := p.set (i - 1) false

/-- `find(_b.begin(), _b.end(), true)` — index of the first `true`, if any. -/
def firstTrue : List Bool → Option Nat
  | [] => none
  | b :: rest => if b then some 0 else (firstTrue rest).map (· + 1)

/-- `int val() const`: `1 + (it - _b.begin())` for the first `true`, else `-1`. -/
def Possible.val (p : Possible) : Int :=
  match firstTrue p with
  | some j => (j : Int) + 1
  | none => -1

/-- `Possible.val` as a `Nat` (`Int.toNat` of it); `0` plays the role of `-1`. -/
def Possible.valN (p : Possible) : Nat :=
  match firstTrue p with
  | some j => j + 1
  | none => 0

theorem val_toNat (p : Possible) : (Possible.val p).toNat = Possible.valN p := by
  unfold Possible.val Possible.valN
  cases firstTrue p <;> simp

/-! ## ConstraintTopology: Sudoku::init

The C++ `init` runs
```
for i in 0..8, j in 0..8:
  k = i*9 + j; x = {i, 9 + j, 18 + (i/3)*3 + j/3}
  for g in 0..2: _group[x[g]].push_back(k); _groups_of[k].push_back(x[g])
for k in 0..80: for x in _groups_of[k]: for k2 in _group[x]: if k2 ≠ k: _neighbors[k].push_back(k2)
```
`topoFold` is that first double loop verbatim; `groupCells`, `groupsOfL`
and `neighborsOf` are the resulting tables, proved equal to the fold. -/

/-- One push step of `Sudoku::init`: append `k` to `_group[x]` and `x` to
`_groups_of[k]`. -/
def topoPush (acc : List (List Nat) × List (List Nat)) (k x : Nat) :
    List (List Nat) × List (List Nat) :=
  (acc.1.set x (acc.1.getD x [] ++ [k]), acc.2.set k (acc.2.getD k [] ++ [x]))

/-- The double loop of `Sudoku::init` building `_group` (27 entries) and
`_groups_of` (81 entries). -/
def topoFold : List (List Nat) × List (List Nat) :=
  (List.range 9).foldl
    (fun acc i =>
      (List.range 9).foldl
        (fun acc j =>
          let k := i * 9 + j
          [i, 9 + j, 18 + (i / 3) * 3 + j / 3].foldl (fun a x => topoPush a k x) acc)
        acc)
    (List.replicate 27 [], List.replicate 81 [])

/-- `_group[x]`: the nine cells of constraint group `x` (row `x` for `x<9`,
column `x-9` for `9≤x<18`, box `x-18` otherwise); `[]` out of range.
Proved equal to the `Sudoku::init` fold in `group_faithful`. -/
def groupCells (x : Nat) : List Nat :=
  if x < 9 then (List.range 9).map (fun j => x * 9 + j)
  else if x < 18 then (List.range 9).map (fun i => i * 9 + (x - 9))
  else if x < 27 then
    (List.range 9).map (fun j => ((x - 18) / 3 * 3 + j / 3) * 9 + ((x - 18) % 3) * 3 + j % 3)
  else []

/-- `_groups_of[k]`: the row, column and box group of cell `k`; `[]` out of
range. Proved equal to the `Sudoku::init` fold in `groups_of_faithful`. -/
def groupsOfL (k : Nat) : List Nat :=
  if k < 81 then [k / 9, 9 + k % 9, 18 + (k / 9 / 3) * 3 + (k % 9) / 3] else []

/-- `_neighbors[k]`: for each group of `k`, the other cells of that group,
in `Sudoku::init`'s push order (duplicates included, as in the C++). -/
def neighborsOf (k : Nat) : List Nat :=
  (groupsOfL k).foldl (fun acc x => acc ++ (groupCells x).filter (fun k2 => k2 ≠ k)) []

set_option maxRecDepth 100000 in
/-- The closed-form `_group` table agrees with the `Sudoku::init` fold. -/
theorem group_faithful : topoFold.1 = (List.range 27).map groupCells := by decide

set_option maxRecDepth 100000 in
/-- The closed-form `_groups_of` table agrees with the `Sudoku::init` fold. -/
theorem groups_of_faithful : topoFold.2 = (List.range 81).map groupsOfL := by decide

/-! ## Board: the 81 candidate sets -/

/-- `vector<Possible> _cells` of class `Sudoku`. -/
abbrev Board := List Possible

/-- `_cells[k]` (C++ indexing is UB out of range; reads give `[]` here). -/
def Board.cell (b : Board) (k : Nat) : Possible := b.getD k []

/-- `Sudoku::Sudoku` starts from `_cells(81)`: 81 full candidate sets. -/
def initBoard : Board := List.replicate 81 Possible.full

/-- `bool is_solved() const`: every cell's count is exactly 1. -/
def is_solved (b : Board) : Bool := b.all (fun p => Possible.count p == 1)

/-- Sum of the candidate counts of all cells — the measure that each real
elimination strictly decreases. -/
def totalCount (b : Board) : Nat := (b.map Possible.count).sum

/-- Replace cell `k`'s candidate set by its `eliminate val` update
(`_cells[k].eliminate(val)`); out-of-range writes are dropped. -/
def removeAt (b : Board) (k v : Nat) : Board :=
  b.set k (Possible.eliminate (Board.cell b k) v)

/-! ## The propagation engine: Sudoku::assign / Sudoku::eliminate

C++ signals failure by returning `false` from the middle of a loop.
`foldStop` is that loop shape: run `step` on each element, threading the
board, stopping at the first failure (`some (false, _)`) or fuel
exhaustion (`none`). -/

/-- Left-to-right loop threading the board through `step`, with early exit
on failure or fuel exhaustion — the `for (...) { if (!f(...)) return false; }`
pattern of the C++. -/
def foldStop (step : Board → Nat → Option (Bool × Board)) (b : Board) :
    List Nat → Option (Bool × Board)
  | [] => some (true, b)
  | i :: rest =>
    match step b i with
    | none => none
    | some (false, b1) => some (false, b1)
    | some (true, b1) => foldStop step b1 rest

/-- `q.1`/`q.2` after the inner scan of `Sudoku::eliminate`:
`for j in 0..8 { p = _group[x][j]; if (_cells[p].is_on(val)) { n++, ks = p; } }`.
`ks` starts at 0 standing for the C++'s uninitialized `ks` (only read when
`n == 1`, in which case it was written). -/
def groupScan (b : Board) (cells : List Nat) (v : Nat) : Nat × Nat :=
  cells.foldl (fun q p => if Possible.is_on (Board.cell b p) v then (q.1 + 1, p) else q) (0, 0)

/-- The digits `1..9`, the iteration domain of `Sudoku::assign`'s loop. -/
def digits : List Nat := [1, 2, 3, 4, 5, 6, 7, 8, 9]

/-- Body of `Sudoku::assign`, with the recursive `eliminate` abstracted as
`el`: `for i in 1..9: if i ≠ val: if (!eliminate(k, i)) return false`. -/
def assignCore (el : Board → Nat → Nat → Option (Bool × Board)) (b : Board) (k v : Nat) :
    Option (Bool × Board) :=
  foldStop (fun b1 i => if i = v then some (true, b1) else el b1 k i) b digits

/-- One step of the group loop of `Sudoku::eliminate`, with the recursive
`assign` abstracted as `asg`: scan group `x` for cells admitting `v`;
`n == 0` fails ("group exhausted"), `n == 1` forces `assign(ks, v)`
("hidden single"), otherwise no action. -/
def groupStep (asg : Board → Nat → Nat → Option (Bool × Board)) (v : Nat) (b : Board) (x : Nat) :
    Option (Bool × Board) :=
  match groupScan b (groupCells x) v with
  | (0, _) => some (false, b)
  | (1, ks) => asg b ks v
  | _ => some (true, b)

/-- Sequencing with failure propagation: run `nxt` on the board only if the
first result succeeded. -/
def seqStop (r : Option (Bool × Board)) (nxt : Board → Option (Bool × Board)) :
    Option (Bool × Board) :=
  match r with
  | none => none
  | some (false, b) => some (false, b)
  | some (true, b) => nxt b

/-- The naked-single stage of `Sudoku::eliminate`: once cell `k` of `bR`
has exactly one candidate left (`N == 1`), eliminate that value from every
neighbor of `k`; otherwise do nothing. -/
def nakedRun (el : Board → Nat → Nat → Option (Bool × Board)) (bR : Board) (k : Nat) :
    Option (Bool × Board) :=
  if Possible.count (Board.cell bR k) = 1 then
    foldStop (fun b2 k2 => el b2 k2 (Possible.val (Board.cell bR k)).toNat) bR (neighborsOf k)
  else some (true, bR)

/-- The hidden-single stage of `Sudoku::eliminate`: run `groupStep` on each
of the three groups of `k`. -/
def groupRun (asg : Board → Nat → Nat → Option (Bool × Board)) (v k : Nat) (b2 : Board) :
    Option (Bool × Board) :=
  foldStop (groupStep asg v) b2 (groupsOfL k)

/-- Body of `Sudoku::eliminate` with the recursive calls abstracted:
1. if `val` is already off at `k`, succeed unchanged;
2. turn it off; if the count reaches 0, fail;
3. the naked-single stage (`nakedRun`), then the group stage (`groupRun`),
   failure aborting in between. -/
def elimCore (el asg : Board → Nat → Nat → Option (Bool × Board)) (b : Board) (k v : Nat) :
    Option (Bool × Board) :=
  if Possible.is_on (Board.cell b k) v then
    let b1 := removeAt b k v
    if Possible.count (Board.cell b1 k) = 0 then some (false, b1)
    else seqStop (nakedRun el b1 k) (groupRun asg v k)
  else some (true, b)

/-- Complete case analysis of a returning `elimCore` call. -/
theorem elimCore_some_cases {el asg : Board → Nat → Nat → Option (Bool × Board)}
    {b : Board} {k v : Nat} {q : Bool × Board}
    (h : elimCore el asg b k v = some q) :
    (Possible.is_on (Board.cell b k) v = false ∧ q = (true, b)) ∨
    (Possible.is_on (Board.cell b k) v = true ∧
      ((Possible.count (Board.cell (removeAt b k v) k) = 0 ∧ q = (false, removeAt b k v)) ∨
       (Possible.count (Board.cell (removeAt b k v) k) ≠ 0 ∧
         ((∃ bm, nakedRun el (removeAt b k v) k = some (false, bm) ∧ q = (false, bm)) ∨
          (∃ bm, nakedRun el (removeAt b k v) k = some (true, bm) ∧
            groupRun asg v k bm = some q))))) := by
  unfold elimCore at h
  by_cases hon : Possible.is_on (Board.cell b k) v = true
  · rw [if_pos hon] at h
    simp only [] at h
    right
    refine ⟨hon, ?_⟩
    by_cases hz : Possible.count (Board.cell (removeAt b k v) k) = 0
    · rw [if_pos hz] at h
      cases h
      exact Or.inl ⟨hz, rfl⟩
    · rw [if_neg hz] at h
      refine Or.inr ⟨hz, ?_⟩
      unfold seqStop at h
      cases hn : nakedRun el (removeAt b k v) k with
      | none => rw [hn] at h; exact absurd h (by simp)
      | some qn =>
        rw [hn] at h
        obtain ⟨flag, bm⟩ := qn
        cases flag with
        | false =>
          cases h
          exact Or.inl ⟨bm, rfl, rfl⟩
        | true => exact Or.inr ⟨bm, rfl, h⟩
  · rw [if_neg hon] at h
    cases h
    simp only [Bool.not_eq_true] at hon
    exact Or.inl ⟨hon, rfl⟩

mutual

/-- `bool Sudoku::assign(int k, int val)` with fuel (first argument).
`none` = fuel ran out (never happens with fuel `2 * totalCount b + 3`,
see the termination theorem); `some (flag, board)` = the C++ return value
together with the mutated `_cells`. -/
def assignF : Nat → Board → Nat → Nat → Option (Bool × Board)
  | 0, _, _, _ => none
  | f + 1, b, k, v => assignCore (eliminateF f) b k v

/-- `bool Sudoku::eliminate(int k, int val)` with fuel; see `assignF`. -/
def eliminateF : Nat → Board → Nat → Nat → Option (Bool × Board)
  | 0, _, _, _ => none
  | f + 1, b, k, v => elimCore (eliminateF f) (assignF f) b k v

end

/-! ## least_count, solve, and the constructor -/

/-- `int Sudoku::least_count() const`: index of the first cell whose count
is `> 1` and minimal among such cells, `-1` if none. The loop state is
`(k, min)`; `min` starts at 0 standing for the C++'s uninitialized `min`
(only read once `k ≠ -1`, in which case it was written). -/
def least_count (b : Board) : Int :=
  ((List.range b.length).foldl
    (fun q i =>
      let m := Possible.count (Board.cell b i)
      if m > 1 ∧ (q.1 = -1 ∨ m < q.2) then ((i : Int), m) else q)
    ((-1 : Int), 0)).1

/-- `S->possible(k)` as used in `solve`; `k = -1` (UB in the C++) reads as
the empty candidate set. -/
def possAt (b : Board) (k : Int) : Possible :=
  if k < 0 then [] else Board.cell b k.toNat

/-- Fuel that provably suffices for `assignF` (termination theorem). -/
def assignFuel (b : Board) : Nat := 2 * totalCount b + 3

mutual

/-- `unique_ptr<Sudoku> solve(unique_ptr<Sudoku> S)` with fuel. `none` =
fuel ran out; `some none` = the C++ returned an empty pointer ("no
solution"); `some (some b)` = it returned board `b`. The inner `assign`
runs on its provably sufficient fuel, so it never exhausts. -/
def solveF : Nat → Option Board → Option (Option Board)
  | 0, _ => none
  | _ + 1, none => some none
  | f + 1, some b =>
    if is_solved b then some (some b)
    else solveLoop f b (least_count b) (possAt b (least_count b)) digits

/-- The candidate loop of `solve`: try each digit of `p` in order on a copy
of the board (copying is implicit here — boards are values), return the
first recursive solution, `some none` if every digit fails. -/
def solveLoop : Nat → Board → Int → Possible → List Nat → Option (Option Board)
  | 0, _, _, _, _ => none
  | _ + 1, _, _, _, [] => some none
  | f + 1, b, k, p, i :: rest =>
    if Possible.is_on p i then
      match assignF (assignFuel b) b k.toNat i with
      | none => none
      | some (false, _) => solveLoop f b k p rest
      | some (true, b1) =>
        match solveF f (some b1) with
        | none => none
        | some (some b2) => some (some b2)
        | some none => solveLoop f b k p rest
    else solveLoop f b k p rest

end

/-- `Sudoku::Sudoku(string s)` after `_cells(81)`: scan the characters,
`assign` each given digit at the running cell index (aborting the scan if
the assignment fails, as the C++ `return`s early), advance the index on
digits and blanks (`'0'`/`'.'`), skip everything else. The C++ also prints
"error" on failure — I/O that the embedding drops. -/
def parseChars : List Char → Board → Nat → Board
  | [], b, _ => b
  | c :: rest, b, k =>
    if '1' ≤ c ∧ c ≤ '9' then
      match assignF (assignFuel b) b k (c.toNat - '0'.toNat) with
      | some (true, b1) => parseChars rest b1 (k + 1)
      | some (false, b1) => b1
      | none => b
    else if c = '0' ∨ c = '.' then parseChars rest b (k + 1)
    else parseChars rest b k

/-- The whole constructor `Sudoku::Sudoku(string s)`. -/
def sudokuOfString (s : List Char) : Board := parseChars s initBoard 0

/-! ## Basic facts about the candidate-set operations -/

theorem is_on_iff_getElem (p : Possible) (v : Nat) :
    Possible.is_on p v = true ↔ p[v - 1]? = some true := by
  unfold Possible.is_on
  rw [List.getD_eq_getElem?_getD]
  cases h : p[v - 1]? with
  | none => simp
  | some a => cases a <;> simp

theorem lt_length_of_is_on {p : Possible} {v : Nat} (h : Possible.is_on p v = true) :
    v - 1 < p.length := by
  rw [is_on_iff_getElem] at h
  exact (List.getElem?_eq_some.mp h).1

theorem is_on_eliminate (p : Possible) (v d : Nat) :
    Possible.is_on (Possible.eliminate p v) d =
      if v - 1 = d - 1 then false else Possible.is_on p d := by
  unfold Possible.is_on Possible.eliminate
  rw [List.getD_eq_getElem?_getD, List.getD_eq_getElem?_getD, List.getElem?_set]
  by_cases h : v - 1 = d - 1
  · simp only [h, if_pos rfl]
    by_cases h2 : d - 1 < p.length <;> simp [h2]
  · simp [h]

theorem is_on_eliminate_self (p : Possible) (v : Nat) :
    Possible.is_on (Possible.eliminate p v) v = false := by
  rw [is_on_eliminate]; simp

theorem count_pos_of_is_on {p : Possible} {v : Nat} (h : Possible.is_on p v = true) :
    1 ≤ Possible.count p := by
  rw [is_on_iff_getElem] at h
  obtain ⟨hlt, hg⟩ := List.getElem?_eq_some.mp h
  have hm : true ∈ p := by rw [← hg]; exact List.getElem_mem _
  unfold Possible.count
  exact List.count_pos_iff.mpr hm

theorem count_eliminate {p : Possible} {v : Nat} (h : Possible.is_on p v = true) :
    Possible.count (Possible.eliminate p v) = Possible.count p - 1 := by
  have hlt : v - 1 < p.length := lt_length_of_is_on h
  rw [is_on_iff_getElem] at h
  obtain ⟨hlt2, hg⟩ := List.getElem?_eq_some.mp h
  unfold Possible.count Possible.eliminate
  rw [List.count_set (h := hlt)]
  simp [hg]

theorem length_eliminate (p : Possible) (v : Nat) :
    (Possible.eliminate p v).length = p.length := List.length_set ..

/-! ## The evolution preorder: boards only ever lose candidates -/

/-- `Evolves b b2`: `b2` is obtainable from `b` by turning candidate bits
off — same board length, same cell lengths, bits only lost. Every
propagation step moves the board along this preorder. -/
def Evolves (b b2 : Board) : Prop :=
  b2.length = b.length ∧
  ∀ p, (Board.cell b2 p).length = (Board.cell b p).length ∧
    ∀ j, (Board.cell b2 p).getD j false = true → (Board.cell b p).getD j false = true

theorem Evolves.refl (b : Board) : Evolves b b :=
  ⟨rfl, fun _ => ⟨rfl, fun _ h => h⟩⟩

theorem Evolves.trans {a b c : Board} (h1 : Evolves a b) (h2 : Evolves b c) : Evolves a c := by
  refine ⟨h2.1.trans h1.1, fun p => ?_⟩
  exact ⟨((h2.2 p).1).trans (h1.2 p).1, fun j hj => (h1.2 p).2 j ((h2.2 p).2 j hj)⟩

theorem Evolves.is_on_mono {b b2 : Board} (h : Evolves b b2) {p v : Nat}
    (hv : Possible.is_on (Board.cell b2 p) v = true) :
    Possible.is_on (Board.cell b p) v = true :=
  (h.2 p).2 (v - 1) hv

theorem Evolves.off_mono {b b2 : Board} (h : Evolves b b2) {p v : Nat}
    (hv : Possible.is_on (Board.cell b p) v = false) :
    Possible.is_on (Board.cell b2 p) v = false := by
  cases hcase : Possible.is_on (Board.cell b2 p) v with
  | false => rfl
  | true => rw [h.is_on_mono hcase] at hv; exact hv.symm ▸ rfl

theorem lt_board_length_of_is_on {b : Board} {k v : Nat}
    (h : Possible.is_on (Board.cell b k) v = true) : k < b.length := by
  by_contra hk
  have : Board.cell b k = [] := by
    unfold Board.cell
    exact List.getD_eq_default _ _ (le_of_not_lt hk)
  rw [this] at h
  simp [Possible.is_on] at h

theorem cell_removeAt_same {b : Board} {k : Nat} (hk : k < b.length) (v : Nat) :
    Board.cell (removeAt b k v) k = Possible.eliminate (Board.cell b k) v := by
  unfold removeAt Board.cell
  rw [List.getD_eq_getElem?_getD, List.getElem?_set]
  simp [hk]

theorem cell_removeAt_other {b : Board} {k p : Nat} (hp : p ≠ k) (v : Nat) :
    Board.cell (removeAt b k v) p = Board.cell b p := by
  unfold removeAt Board.cell
  rw [List.getD_eq_getElem?_getD, List.getElem?_set, List.getD_eq_getElem?_getD]
  have hkp : ¬(k = p) := fun h => hp h.symm
  rw [if_neg hkp, List.getD_eq_getElem?_getD]

theorem length_removeAt (b : Board) (k v : Nat) : (removeAt b k v).length = b.length :=
  List.length_set ..

theorem evolves_removeAt {b : Board} {k v : Nat}
    (h : Possible.is_on (Board.cell b k) v = true) : Evolves b (removeAt b k v) := by
  have hk : k < b.length := lt_board_length_of_is_on h
  refine ⟨length_removeAt .., fun p => ?_⟩
  by_cases hp : p = k
  · subst hp
    rw [cell_removeAt_same hk]
    refine ⟨length_eliminate .., fun j hj => ?_⟩
    have : Possible.is_on (Possible.eliminate (Board.cell b p) v) (j + 1) = true := by
      unfold Possible.is_on; simpa using hj
    rw [is_on_eliminate] at this
    by_cases hc : v - 1 = (j + 1) - 1
    · rw [if_pos hc] at this; exact absurd this (by simp)
    · rw [if_neg hc] at this
      unfold Possible.is_on at this; simpa using this
  · rw [cell_removeAt_other hp]
    exact ⟨rfl, fun _ h => h⟩

/-! ## Counting lemmas for the termination measure -/

theorem count_le_pointwise :
    ∀ (l2 l : List Bool), l2.length = l.length →
      (∀ j, l2.getD j false = true → l.getD j false = true) →
      Possible.count l2 ≤ Possible.count l := by
  intro l2
  induction l2 with
  | nil => intro l _ _; simp [Possible.count]
  | cons a t ih =>
    intro l hlen hpt
    cases l with
    | nil => simp at hlen
    | cons a0 t0 =>
      have htail : Possible.count t ≤ Possible.count t0 := by
        refine ih t0 (by simpa using hlen) fun j hj => ?_
        have h2 := hpt (j + 1)
        simp only [List.getD_cons_succ] at h2
        exact h2 hj
      have hhead : a = true → a0 = true := by
        intro ha
        have h0 := hpt 0
        simp only [List.getD_cons_zero] at h0
        exact h0 ha
      unfold Possible.count at htail ⊢
      rw [List.count_cons, List.count_cons]
      cases a with
      | true => rw [hhead rfl]; simp; omega
      | false => cases a0 <;> simp <;> omega

theorem eq_of_count_eq_pointwise :
    ∀ (l2 l : List Bool), l2.length = l.length →
      (∀ j, l2.getD j false = true → l.getD j false = true) →
      Possible.count l2 = Possible.count l → l2 = l := by
  intro l2
  induction l2 with
  | nil => intro l hlen _ _; exact (List.eq_nil_of_length_eq_zero hlen.symm).symm ▸ rfl
  | cons a t ih =>
    intro l hlen hpt hcnt
    cases l with
    | nil => simp at hlen
    | cons a0 t0 =>
      have hlen' : t.length = t0.length := by simpa using hlen
      have hpt' : ∀ j, t.getD j false = true → t0.getD j false = true := by
        intro j hj
        have := hpt (j + 1)
        simpa using this (by simpa using hj)
      have htail_le : Possible.count t ≤ Possible.count t0 := count_le_pointwise t t0 hlen' hpt'
      have hhead : a = true → a0 = true := by
        intro ha
        have h0 := hpt 0
        simp only [List.getD_cons_zero] at h0
        exact h0 ha
      unfold Possible.count at hcnt htail_le
      rw [List.count_cons, List.count_cons] at hcnt
      have hae : a = a0 := by
        cases a with
        | true => exact (hhead rfl).symm
        | false =>
          cases a0 with
          | false => rfl
          | true => exfalso; simp at hcnt; omega
      have hteq : Possible.count t = Possible.count t0 := by
        unfold Possible.count
        subst hae
        cases a <;> simp at hcnt <;> omega
      rw [hae, ih t0 hlen' hpt' hteq]

theorem board_cell_cons_succ (c : Possible) (t : Board) (p : Nat) :
    Board.cell (c :: t) (p + 1) = Board.cell t p := by
  unfold Board.cell; simp

theorem board_cell_cons_zero (c : Possible) (t : Board) :
    Board.cell (c :: t) 0 = c := by
  unfold Board.cell; simp

theorem totalCount_le_aux :
    ∀ (l2 l : Board), l2.length = l.length →
      (∀ p, Possible.count (Board.cell l2 p) ≤ Possible.count (Board.cell l p)) →
      totalCount l2 ≤ totalCount l := by
  intro l2
  induction l2 with
  | nil => intro l _ _; simp [totalCount]
  | cons c t ih =>
    intro l hlen hpt
    cases l with
    | nil => simp at hlen
    | cons c0 t0 =>
      have h0 := hpt 0
      rw [board_cell_cons_zero, board_cell_cons_zero] at h0
      have ht : totalCount t ≤ totalCount t0 := by
        refine ih t0 (by simpa using hlen) fun p => ?_
        have := hpt (p + 1)
        rwa [board_cell_cons_succ, board_cell_cons_succ] at this
      unfold totalCount at *
      simp only [List.map_cons, List.sum_cons]
      omega

theorem totalCount_mono {b b2 : Board} (h : Evolves b b2) : totalCount b2 ≤ totalCount b := by
  refine totalCount_le_aux b2 b h.1 fun p => ?_
  exact count_le_pointwise _ _ (h.2 p).1 (h.2 p).2

theorem board_eq_of_evolves_totalCount :
    ∀ (b b2 : Board), Evolves b b2 → totalCount b2 = totalCount b → b2 = b := by
  intro b
  induction b with
  | nil =>
    intro b2 hev _
    exact List.eq_nil_of_length_eq_zero (by simpa using hev.1)
  | cons c t ih =>
    intro b2 hev hcnt
    cases b2 with
    | nil => exact absurd hev.1 (by simp)
    | cons c2 t2 =>
      have hlen' : t2.length = t.length := by simpa using hev.1
      have hcell0 := hev.2 0
      rw [board_cell_cons_zero, board_cell_cons_zero] at hcell0
      have hcellS : ∀ p, (Board.cell t2 p).length = (Board.cell t p).length ∧
          ∀ j, (Board.cell t2 p).getD j false = true → (Board.cell t p).getD j false = true := by
        intro p
        have := hev.2 (p + 1)
        rwa [board_cell_cons_succ, board_cell_cons_succ] at this
      have hevt : Evolves t t2 := ⟨hlen', hcellS⟩
      have hc2le : Possible.count c2 ≤ Possible.count c :=
        count_le_pointwise _ _ hcell0.1 hcell0.2
      have ht2le : totalCount t2 ≤ totalCount t := totalCount_mono hevt
      unfold totalCount at hcnt
      simp only [List.map_cons, List.sum_cons] at hcnt
      have hc2 : Possible.count c2 = Possible.count c := by
        unfold totalCount at ht2le; omega
      have ht2 : totalCount t2 = totalCount t := by
        unfold totalCount at *; omega
      rw [eq_of_count_eq_pointwise c2 c hcell0.1 hcell0.2 hc2, ih t2 hevt ht2]

theorem totalCount_removeAt {b : Board} {k v : Nat}
    (h : Possible.is_on (Board.cell b k) v = true) :
    totalCount (removeAt b k v) + 1 = totalCount b := by
  induction b generalizing k with
  | nil =>
    exfalso
    have := lt_board_length_of_is_on h
    simp at this
  | cons c t ih =>
    cases k with
    | zero =>
      rw [board_cell_cons_zero] at h
      have : removeAt (c :: t) 0 v = Possible.eliminate c v :: t := by
        unfold removeAt
        rw [board_cell_cons_zero]
        rfl
      rw [this]
      unfold totalCount
      simp only [List.map_cons, List.sum_cons]
      have h1 := count_eliminate h
      have h2 := count_pos_of_is_on h
      omega
    | succ k =>
      rw [board_cell_cons_succ] at h
      have : removeAt (c :: t) (k + 1) v = c :: removeAt t k v := by
        unfold removeAt
        rw [board_cell_cons_succ]
        rfl
      rw [this]
      unfold totalCount at *
      simp only [List.map_cons, List.sum_cons]
      have := ih h
      omega

/-! ## Generic lemmas about the early-exit loop -/

theorem foldStop_nil (step : Board → Nat → Option (Bool × Board)) (b : Board) :
    foldStop step b [] = some (true, b) := rfl

theorem foldStop_cons (step : Board → Nat → Option (Bool × Board)) (b : Board) (i : Nat)
    (rest : List Nat) :
    foldStop step b (i :: rest) =
      match step b i with
      | none => none
      | some (false, b1) => some (false, b1)
      | some (true, b1) => foldStop step b1 rest := rfl

/-- Replacing the step by one that agrees on every `some` result (fuel
monotonicity) does not change a `some` result of the loop. -/
theorem foldStop_congr {step step2 : Board → Nat → Option (Bool × Board)}
    (h : ∀ b i r, step b i = some r → step2 b i = some r) :
    ∀ (l : List Nat) (b : Board) (r : Bool × Board),
      foldStop step b l = some r → foldStop step2 b l = some r := by
  intro l
  induction l with
  | nil => intro b r hr; exact hr
  | cons i rest ih =>
    intro b r hr
    rw [foldStop_cons] at hr
    rw [foldStop_cons]
    cases hs : step b i with
    | none => rw [hs] at hr; exact absurd hr (by simp)
    | some q =>
      rw [hs] at hr
      rw [h b i q hs]
      obtain ⟨flag, b1⟩ := q
      cases flag with
      | false => exact hr
      | true => exact ih b1 r hr

/-- The loop moves the board along any reflexive transitive relation that
every step respects. -/
theorem foldStop_rel {step : Board → Nat → Option (Bool × Board)} (R : Board → Board → Prop)
    (hrefl : ∀ b, R b b) (htrans : ∀ a b c, R a b → R b c → R a c) :
    ∀ (l : List Nat) (b : Board),
      (∀ b2 i r b3, i ∈ l → step b2 i = some (r, b3) → R b2 b3) →
      ∀ r b1, foldStop step b l = some (r, b1) → R b b1 := by
  intro l
  induction l with
  | nil =>
    intro b _ r b1 hr
    rw [foldStop_nil] at hr
    cases hr
    exact hrefl b
  | cons i rest ih =>
    intro b hstep r b1 hr
    rw [foldStop_cons] at hr
    cases hs : step b i with
    | none => rw [hs] at hr; exact absurd hr (by simp)
    | some q =>
      rw [hs] at hr
      obtain ⟨flag, bm⟩ := q
      have h1 : R b bm := hstep b i flag bm (by simp) hs
      cases flag with
      | false =>
        cases hr
        exact h1
      | true =>
        exact htrans _ _ _ h1
          (ih bm (fun b2 j r2 b3 hj => hstep b2 j r2 b3 (by simp [hj])) r b1 hr)

/-- Success-only variant: if every successful step respects `R`, a
successful loop does. -/
theorem foldStop_rel_true {step : Board → Nat → Option (Bool × Board)} (R : Board → Board → Prop)
    (hrefl : ∀ b, R b b) (htrans : ∀ a b c, R a b → R b c → R a c) :
    ∀ (l : List Nat) (b : Board),
      (∀ b2 i b3, i ∈ l → step b2 i = some (true, b3) → R b2 b3) →
      ∀ b1, foldStop step b l = some (true, b1) → R b b1 := by
  intro l
  induction l with
  | nil =>
    intro b _ b1 hr
    rw [foldStop_nil] at hr
    cases hr
    exact hrefl b
  | cons i rest ih =>
    intro b hstep b1 hr
    rw [foldStop_cons] at hr
    cases hs : step b i with
    | none => rw [hs] at hr; exact absurd hr (by simp)
    | some q =>
      rw [hs] at hr
      obtain ⟨flag, bm⟩ := q
      cases flag with
      | false => exact absurd hr (by simp)
      | true =>
        have h1 : R b bm := hstep b i bm (by simp) hs
        exact htrans _ _ _ h1
          (ih bm (fun b2 j b3 hj => hstep b2 j b3 (by simp [hj])) b1 hr)

/-- The loop cannot run out of fuel if no step can on boards satisfying a
predicate that successful steps preserve. -/
theorem foldStop_isSome {step : Board → Nat → Option (Bool × Board)} (Q : Board → Prop) :
    ∀ (l : List Nat) (b : Board),
      (∀ b2 i b3, i ∈ l → Q b2 → step b2 i = some (true, b3) → Q b3) →
      (∀ b2 i, i ∈ l → Q b2 → step b2 i ≠ none) →
      Q b → foldStop step b l ≠ none := by
  intro l
  induction l with
  | nil => intro b _ _ _; rw [foldStop_nil]; simp
  | cons i rest ih =>
    intro b hpres hdef hQ
    rw [foldStop_cons]
    cases hs : step b i with
    | none => exact absurd hs (hdef b i (by simp) hQ)
    | some q =>
      obtain ⟨flag, bm⟩ := q
      cases flag with
      | false => simp
      | true =>
        exact ih bm (fun b2 j b3 hj => hpres b2 j b3 (by simp [hj]))
          (fun b2 j hj => hdef b2 j (by simp [hj])) (hpres b i bm (by simp) hQ hs)

/-- In a successful loop, every listed element was processed successfully
on some intermediate board reachable (by `R`) from the start, and the loop
result is reachable from that step's output. -/
theorem foldStop_each_true {step : Board → Nat → Option (Bool × Board)} (R : Board → Board → Prop)
    (hrefl : ∀ b, R b b) (htrans : ∀ a b c, R a b → R b c → R a c)
    (hstep : ∀ b2 i r b3, step b2 i = some (r, b3) → R b2 b3) :
    ∀ (l : List Nat) (b : Board) (bf : Board),
      foldStop step b l = some (true, bf) →
      ∀ i ∈ l, ∃ bi bo, R b bi ∧ step bi i = some (true, bo) ∧ R bo bf := by
  intro l
  induction l with
  | nil => intro b bf _ i hi; exact absurd hi (by simp)
  | cons j rest ih =>
    intro b bf hr i hi
    rw [foldStop_cons] at hr
    cases hs : step b j with
    | none => rw [hs] at hr; exact absurd hr (by simp)
    | some q =>
      rw [hs] at hr
      obtain ⟨flag, bm⟩ := q
      cases flag with
      | false => exact absurd hr (by simp)
      | true =>
        rcases List.mem_cons.mp hi with hij | hmem
        · subst hij
          refine ⟨b, bm, hrefl b, hs, ?_⟩
          exact foldStop_rel R hrefl htrans rest bm
            (fun b2 p r2 b3 _ hp => hstep b2 p r2 b3 hp) true bf hr
        · obtain ⟨bi, bo, h1, h2, h3⟩ := ih bm bf hr i hmem
          exact ⟨bi, bo, htrans _ _ _ (hstep b j true bm hs) h1, h2, h3⟩

/-! ## Evolution through the propagation engine -/

theorem assignCore_evolves {el : Board → Nat → Nat → Option (Bool × Board)}
    (hel : ∀ b k v r b1, el b k v = some (r, b1) → Evolves b b1) :
    ∀ b k v r b1, assignCore el b k v = some (r, b1) → Evolves b b1 := by
  intro b k v r b1 h
  unfold assignCore at h
  refine foldStop_rel Evolves Evolves.refl (fun _ _ _ => Evolves.trans) digits b ?_ r b1 h
  intro b2 i r2 b3 _ hs
  by_cases hi : i = v
  · rw [if_pos hi] at hs
    cases hs
    exact Evolves.refl b2
  · rw [if_neg hi] at hs
    exact hel b2 k i r2 b3 hs

theorem groupStep_evolves {asg : Board → Nat → Nat → Option (Bool × Board)}
    (hasg : ∀ b k v r b1, asg b k v = some (r, b1) → Evolves b b1) :
    ∀ (v : Nat) (b : Board) (x : Nat) (r : Bool) (b1 : Board),
      groupStep asg v b x = some (r, b1) → Evolves b b1 := by
  intro v b x r b1 h
  unfold groupStep at h
  rcases hq : groupScan b (groupCells x) v with ⟨n, ks⟩
  rw [hq] at h
  match n, h with
  | 0, h => cases h; exact Evolves.refl b
  | 1, h => exact hasg b ks v r b1 h
  | (m + 2), h => cases h; exact Evolves.refl b

theorem nakedRun_evolves {el : Board → Nat → Nat → Option (Bool × Board)}
    (hel : ∀ b k v r b1, el b k v = some (r, b1) → Evolves b b1)
    {bR : Board} {k : Nat} {r : Bool} {bm : Board}
    (h : nakedRun el bR k = some (r, bm)) : Evolves bR bm := by
  unfold nakedRun at h
  by_cases h1 : Possible.count (Board.cell bR k) = 1
  · rw [if_pos h1] at h
    exact foldStop_rel Evolves Evolves.refl (fun _ _ _ => Evolves.trans) _ _
      (fun b2 i r3 b3 _ hs => hel b2 i _ r3 b3 hs) r bm h
  · rw [if_neg h1] at h
    cases h
    exact Evolves.refl _

theorem groupRun_evolves {asg : Board → Nat → Nat → Option (Bool × Board)}
    (hasg : ∀ b k v r b1, asg b k v = some (r, b1) → Evolves b b1)
    {v k : Nat} {b2 : Board} {r : Bool} {b1 : Board}
    (h : groupRun asg v k b2 = some (r, b1)) : Evolves b2 b1 :=
  foldStop_rel Evolves Evolves.refl (fun _ _ _ => Evolves.trans) _ _
    (fun b3 x r3 b4 _ hs => groupStep_evolves hasg v b3 x r3 b4 hs) r b1 h

theorem elimCore_evolves {el asg : Board → Nat → Nat → Option (Bool × Board)}
    (hel : ∀ b k v r b1, el b k v = some (r, b1) → Evolves b b1)
    (hasg : ∀ b k v r b1, asg b k v = some (r, b1) → Evolves b b1) :
    ∀ b k v r b1, elimCore el asg b k v = some (r, b1) → Evolves b b1 := by
  intro b k v r b1 h
  rcases elimCore_some_cases h with ⟨_, hq⟩ | ⟨hon, hrest⟩
  · cases hq
    exact Evolves.refl b
  · have hev1 : Evolves b (removeAt b k v) := evolves_removeAt hon
    rcases hrest with ⟨_, hq⟩ | ⟨_, ⟨bm, hn, hq⟩ | ⟨bm, hn, hq⟩⟩
    · cases hq
      exact hev1
    · cases hq
      exact hev1.trans (nakedRun_evolves hel hn)
    · exact (hev1.trans (nakedRun_evolves hel hn)).trans (groupRun_evolves hasg hq)

/-- `Sudoku::eliminate` / `Sudoku::assign` only ever turn candidates off
(whatever they return). -/
theorem evolves_mutual : ∀ f : Nat,
    (∀ b k v r b1, eliminateF f b k v = some (r, b1) → Evolves b b1) ∧
    (∀ b k v r b1, assignF f b k v = some (r, b1) → Evolves b b1) := by
  intro f
  induction f with
  | zero =>
    constructor <;> intro b k v r b1 h <;> exact absurd h (by simp [eliminateF, assignF])
  | succ f ih =>
    constructor
    · intro b k v r b1 h
      exact elimCore_evolves ih.1 ih.2 b k v r b1 h
    · intro b k v r b1 h
      exact assignCore_evolves ih.1 b k v r b1 h

theorem evolves_eliminateF {f : Nat} {b : Board} {k v : Nat} {r : Bool} {b1 : Board}
    (h : eliminateF f b k v = some (r, b1)) : Evolves b b1 :=
  (evolves_mutual f).1 b k v r b1 h

theorem evolves_assignF {f : Nat} {b : Board} {k v : Nat} {r : Bool} {b1 : Board}
    (h : assignF f b k v = some (r, b1)) : Evolves b b1 :=
  (evolves_mutual f).2 b k v r b1 h

/-! ## Fuel monotonicity: a `some` result is stable under more fuel -/

theorem seqStop_congr {r r2 : Option (Bool × Board)} {nxt nxt2 : Board → Option (Bool × Board)}
    (hr : ∀ q, r = some q → r2 = some q) (hn : ∀ b q, nxt b = some q → nxt2 b = some q) :
    ∀ q, seqStop r nxt = some q → seqStop r2 nxt2 = some q := by
  intro q h
  unfold seqStop at h ⊢
  cases hc : r with
  | none => rw [hc] at h; exact absurd h (by simp)
  | some p =>
    rw [hc] at h
    rw [hr p hc]
    obtain ⟨flag, b⟩ := p
    cases flag with
    | false => exact h
    | true => exact hn b q h

theorem groupStep_congr {asg asg2 : Board → Nat → Nat → Option (Bool × Board)}
    (hasg : ∀ b k v r, asg b k v = some r → asg2 b k v = some r) :
    ∀ v b x r, groupStep asg v b x = some r → groupStep asg2 v b x = some r := by
  intro v b x r h
  unfold groupStep at h ⊢
  rcases hq : groupScan b (groupCells x) v with ⟨n, ks⟩
  rw [hq] at h
  match n, h with
  | 0, h => exact h
  | 1, h => exact hasg b ks v r h
  | (m + 2), h => exact h

theorem nakedRun_congr {el el2 : Board → Nat → Nat → Option (Bool × Board)}
    (hel : ∀ b k v r, el b k v = some r → el2 b k v = some r) :
    ∀ bR k r, nakedRun el bR k = some r → nakedRun el2 bR k = some r := by
  intro bR k r h
  unfold nakedRun at h ⊢
  by_cases h1 : Possible.count (Board.cell bR k) = 1
  · rw [if_pos h1] at h ⊢
    exact foldStop_congr (fun b2 i q hs => hel b2 i _ q hs) _ bR r h
  · rw [if_neg h1] at h ⊢
    exact h

theorem elimCore_congr {el asg el2 asg2 : Board → Nat → Nat → Option (Bool × Board)}
    (hel : ∀ b k v r, el b k v = some r → el2 b k v = some r)
    (hasg : ∀ b k v r, asg b k v = some r → asg2 b k v = some r) :
    ∀ b k v r, elimCore el asg b k v = some r → elimCore el2 asg2 b k v = some r := by
  intro b k v r h
  unfold elimCore at h ⊢
  by_cases hon : Possible.is_on (Board.cell b k) v = true
  · rw [if_pos hon] at h ⊢
    simp only [] at h ⊢
    by_cases hz : Possible.count (Board.cell (removeAt b k v) k) = 0
    · rw [if_pos hz] at h ⊢
      exact h
    · rw [if_neg hz] at h ⊢
      refine seqStop_congr (fun q hq => nakedRun_congr hel _ _ q hq) ?_ r h
      intro b2 q hq
      exact foldStop_congr (fun b3 x q2 hs => groupStep_congr hasg v b3 x q2 hs) _ b2 q hq
  · rw [if_neg hon] at h ⊢
    exact h

theorem assignCore_congr {el el2 : Board → Nat → Nat → Option (Bool × Board)}
    (hel : ∀ b k v r, el b k v = some r → el2 b k v = some r) :
    ∀ b k v r, assignCore el b k v = some r → assignCore el2 b k v = some r := by
  intro b k v r h
  unfold assignCore at h ⊢
  refine foldStop_congr ?_ digits b r h
  intro b2 i q hs
  by_cases hi : i = v
  · rwa [if_pos hi] at hs ⊢
  · rw [if_neg hi] at hs ⊢
    exact hel b2 k i q hs

theorem fuel_step_mutual : ∀ f : Nat,
    (∀ b k v r, eliminateF f b k v = some r → eliminateF (f + 1) b k v = some r) ∧
    (∀ b k v r, assignF f b k v = some r → assignF (f + 1) b k v = some r) := by
  intro f
  induction f with
  | zero =>
    constructor <;> intro b k v r h <;> exact absurd h (by simp [eliminateF, assignF])
  | succ f ih =>
    constructor
    · intro b k v r h
      exact elimCore_congr ih.1 ih.2 b k v r h
    · intro b k v r h
      exact assignCore_congr ih.1 b k v r h

theorem eliminateF_add {f : Nat} (d : Nat) {b : Board} {k v : Nat} {r : Bool × Board}
    (h : eliminateF f b k v = some r) : eliminateF (f + d) b k v = some r := by
  induction d with
  | zero => exact h
  | succ d ih => exact (fuel_step_mutual (f + d)).1 b k v r ih

theorem assignF_add {f : Nat} (d : Nat) {b : Board} {k v : Nat} {r : Bool × Board}
    (h : assignF f b k v = some r) : assignF (f + d) b k v = some r := by
  induction d with
  | zero => exact h
  | succ d ih => exact (fuel_step_mutual (f + d)).2 b k v r ih

theorem eliminateF_mono {f g : Nat} (hfg : f ≤ g) {b : Board} {k v : Nat} {r : Bool × Board}
    (h : eliminateF f b k v = some r) : eliminateF g b k v = some r := by
  obtain ⟨d, rfl⟩ := Nat.exists_eq_add_of_le hfg
  exact eliminateF_add d h

theorem assignF_mono {f g : Nat} (hfg : f ≤ g) {b : Board} {k v : Nat} {r : Bool × Board}
    (h : assignF f b k v = some r) : assignF g b k v = some r := by
  obtain ⟨d, rfl⟩ := Nat.exists_eq_add_of_le hfg
  exact assignF_add d h

/-! ## After any returning eliminate call, the digit is off at the cell -/

theorem elimCore_off {el asg : Board → Nat → Nat → Option (Bool × Board)}
    (helE : ∀ b k v r b1, el b k v = some (r, b1) → Evolves b b1)
    (hasgE : ∀ b k v r b1, asg b k v = some (r, b1) → Evolves b b1) :
    ∀ b k v r b1, elimCore el asg b k v = some (r, b1) →
      Possible.is_on (Board.cell b1 k) v = false := by
  intro b k v r b1 h
  rcases elimCore_some_cases h with ⟨hoff, hq⟩ | ⟨hon, hrest⟩
  · cases hq
    exact hoff
  · have hk : k < b.length := lt_board_length_of_is_on hon
    have hoffR : Possible.is_on (Board.cell (removeAt b k v) k) v = false := by
      rw [cell_removeAt_same hk]
      exact is_on_eliminate_self _ _
    rcases hrest with ⟨_, hq⟩ | ⟨_, ⟨bm, hn, hq⟩ | ⟨bm, hn, hq⟩⟩
    · cases hq
      exact hoffR
    · cases hq
      exact (nakedRun_evolves helE hn).off_mono hoffR
    · exact ((nakedRun_evolves helE hn).trans (groupRun_evolves hasgE hq)).off_mono hoffR

/-- `Sudoku::eliminate` leaves `val` off at `cell` whenever it returns. -/
theorem eliminateF_off {f : Nat} {b : Board} {k v : Nat} {r : Bool} {b1 : Board}
    (h : eliminateF f b k v = some (r, b1)) :
    Possible.is_on (Board.cell b1 k) v = false := by
  cases f with
  | zero => exact absurd h (by simp [eliminateF])
  | succ f =>
    exact elimCore_off (fun b2 k2 v2 r2 b3 hs => evolves_eliminateF hs)
      (fun b2 k2 v2 r2 b3 hs => evolves_assignF hs) b k v r b1 h

/-! ## Successful calls keep nonempty cells nonempty -/

/-- The count-positivity transfer relation: cells that had at least one
candidate still have one. -/
def KeepsPos (b b1 : Board) : Prop :=
  ∀ p, 1 ≤ Possible.count (Board.cell b p) → 1 ≤ Possible.count (Board.cell b1 p)

theorem keepsPos_refl (b : Board) : KeepsPos b b := fun _ h => h

theorem keepsPos_trans {a b c : Board} (h1 : KeepsPos a b) (h2 : KeepsPos b c) : KeepsPos a c :=
  fun p hp => h2 p (h1 p hp)

theorem groupStep_keepsPos {asg : Board → Nat → Nat → Option (Bool × Board)}
    (hasg : ∀ b k v b1, asg b k v = some (true, b1) → KeepsPos b b1) :
    ∀ v b x b1, groupStep asg v b x = some (true, b1) → KeepsPos b b1 := by
  intro v b x b1 h
  unfold groupStep at h
  rcases hq : groupScan b (groupCells x) v with ⟨n, ks⟩
  rw [hq] at h
  match n, h with
  | 0, h => exact absurd h (by simp)
  | 1, h => exact hasg b ks v b1 h
  | (m + 2), h => cases h; exact keepsPos_refl b

theorem elimCore_keepsPos {el asg : Board → Nat → Nat → Option (Bool × Board)}
    (hel : ∀ b k v b1, el b k v = some (true, b1) → KeepsPos b b1)
    (hasg : ∀ b k v b1, asg b k v = some (true, b1) → KeepsPos b b1) :
    ∀ b k v b1, elimCore el asg b k v = some (true, b1) → KeepsPos b b1 := by
  intro b k v b1 h
  rcases elimCore_some_cases h with ⟨_, hq⟩ | ⟨hon, hrest⟩
  · cases hq
    exact keepsPos_refl b
  · have hk : k < b.length := lt_board_length_of_is_on hon
    rcases hrest with ⟨_, hq⟩ | ⟨hz, ⟨bm, hn, hq⟩ | ⟨bm, hn, hq⟩⟩
    · exact absurd hq (by simp)
    · exact absurd hq (by simp)
    · have h1 : KeepsPos b (removeAt b k v) := by
        intro p hp
        by_cases hpk : p = k
        · subst hpk
          omega
        · rwa [cell_removeAt_other hpk]
      have h2 : KeepsPos (removeAt b k v) bm := by
        unfold nakedRun at hn
        by_cases hone : Possible.count (Board.cell (removeAt b k v) k) = 1
        · rw [if_pos hone] at hn
          exact foldStop_rel_true KeepsPos keepsPos_refl (fun _ _ _ => keepsPos_trans) _ _
            (fun b2 i b3 _ hs => hel b2 i _ b3 hs) bm hn
        · rw [if_neg hone] at hn
          cases hn
          exact keepsPos_refl _
      have h3 : KeepsPos bm b1 :=
        foldStop_rel_true KeepsPos keepsPos_refl (fun _ _ _ => keepsPos_trans) _ _
          (fun b2 x b3 _ hs => groupStep_keepsPos hasg v b2 x b3 hs) b1 hq
      exact keepsPos_trans (keepsPos_trans h1 h2) h3

theorem assignCore_keepsPos {el : Board → Nat → Nat → Option (Bool × Board)}
    (hel : ∀ b k v b1, el b k v = some (true, b1) → KeepsPos b b1) :
    ∀ b k v b1, assignCore el b k v = some (true, b1) → KeepsPos b b1 := by
  intro b k v b1 h
  unfold assignCore at h
  refine foldStop_rel_true KeepsPos keepsPos_refl (fun _ _ _ => keepsPos_trans) digits b ?_ b1 h
  intro b2 i b3 _ hs
  by_cases hi : i = v
  · rw [if_pos hi] at hs
    cases hs
    exact keepsPos_refl b2
  · rw [if_neg hi] at hs
    exact hel b2 k i b3 hs

theorem keepsPos_mutual : ∀ f : Nat,
    (∀ b k v b1, eliminateF f b k v = some (true, b1) → KeepsPos b b1) ∧
    (∀ b k v b1, assignF f b k v = some (true, b1) → KeepsPos b b1) := by
  intro f
  induction f with
  | zero =>
    constructor <;> intro b k v b1 h <;> exact absurd h (by simp [eliminateF, assignF])
  | succ f ih =>
    exact ⟨elimCore_keepsPos ih.1 ih.2, assignCore_keepsPos ih.1⟩

/-! ## Termination: fuel linear in the candidate total always suffices -/

theorem elimCore_isSome {el asg : Board → Nat → Nat → Option (Bool × Board)} {b : Board}
    (helE : ∀ b2 k2 v2 r b3, el b2 k2 v2 = some (r, b3) → Evolves b2 b3)
    (hasgE : ∀ b2 k2 v2 r b3, asg b2 k2 v2 = some (r, b3) → Evolves b2 b3)
    (hel_def : ∀ b2 k2 w, totalCount b2 < totalCount b → el b2 k2 w ≠ none)
    (hasg_def : ∀ b2 k2 w, totalCount b2 < totalCount b → asg b2 k2 w ≠ none) :
    ∀ k v, elimCore el asg b k v ≠ none := by
  intro k v
  unfold elimCore
  by_cases hon : Possible.is_on (Board.cell b k) v = true
  · rw [if_pos hon]
    simp only []
    have hlt : totalCount (removeAt b k v) < totalCount b := by
      have := totalCount_removeAt hon
      omega
    by_cases hz : Possible.count (Board.cell (removeAt b k v) k) = 0
    · rw [if_pos hz]
      simp
    · rw [if_neg hz]
      have hQ : ∀ b2 : Board, Evolves (removeAt b k v) b2 → totalCount b2 < totalCount b :=
        fun b2 hev => lt_of_le_of_lt (totalCount_mono hev) hlt
      have hnaked : nakedRun el (removeAt b k v) k ≠ none := by
        unfold nakedRun
        by_cases hone : Possible.count (Board.cell (removeAt b k v) k) = 1
        · rw [if_pos hone]
          refine foldStop_isSome (fun b2 => totalCount b2 < totalCount b) _ _ ?_ ?_ hlt
          · intro b2 i b3 _ hQ2 hs
            exact lt_of_le_of_lt (totalCount_mono (helE b2 i _ true b3 hs)) hQ2
          · intro b2 i _ hq
            exact hel_def b2 i _ hq
        · rw [if_neg hone]
          simp
      unfold seqStop
      cases hn : nakedRun el (removeAt b k v) k with
      | none => exact absurd hn hnaked
      | some q =>
        obtain ⟨flag, bm⟩ := q
        cases flag with
        | false => simp
        | true =>
          have hbm : totalCount bm < totalCount b := hQ bm (nakedRun_evolves helE hn)
          refine foldStop_isSome (fun b2 => totalCount b2 < totalCount b) _ _ ?_ ?_ hbm
          · intro b2 x b3 _ hQ2 hs
            exact lt_of_le_of_lt (totalCount_mono (groupStep_evolves hasgE v b2 x true b3 hs)) hQ2
          · intro b2 x _ hq2
            unfold groupStep
            rcases hsc : groupScan b2 (groupCells x) v with ⟨n, ks⟩
            match n with
            | 0 => simp
            | 1 => exact hasg_def b2 ks v hq2
            | (m + 2) => simp
  · rw [if_neg hon]
    simp

theorem assignCore_isSome {el : Board → Nat → Nat → Option (Bool × Board)} {b : Board}
    (helE : ∀ b2 k2 v2 r b3, el b2 k2 v2 = some (r, b3) → Evolves b2 b3)
    (hel_def : ∀ b2 k2 w, totalCount b2 ≤ totalCount b → el b2 k2 w ≠ none) :
    ∀ k v, assignCore el b k v ≠ none := by
  intro k v
  unfold assignCore
  refine foldStop_isSome (fun b2 => totalCount b2 ≤ totalCount b) _ _ ?_ ?_ le_rfl
  · intro b2 i b3 _ hQ2 hs
    by_cases hi : i = v
    · rw [if_pos hi] at hs
      cases hs
      exact hQ2
    · rw [if_neg hi] at hs
      exact le_trans (totalCount_mono (helE b2 k i true b3 hs)) hQ2
  · intro b2 i _ hQ2
    by_cases hi : i = v
    · rw [if_pos hi]
      simp
    · rw [if_neg hi]
      exact hel_def b2 k i hQ2

/-- With fuel `2 t + 2` (eliminate) resp. `2 t + 3` (assign), boards of
candidate total `≤ t` never exhaust the fuel: the mutual recursion always
returns. -/
theorem fuel_sufficient : ∀ t : Nat,
    (∀ b : Board, totalCount b ≤ t → ∀ k v, eliminateF (2 * t + 2) b k v ≠ none) ∧
    (∀ b : Board, totalCount b ≤ t → ∀ k v, assignF (2 * t + 3) b k v ≠ none) := by
  intro t
  induction t with
  | zero =>
    have helim : ∀ b : Board, totalCount b ≤ 0 → ∀ k v, eliminateF 2 b k v ≠ none := by
      intro b hb k v
      show elimCore (eliminateF 1) (assignF 1) b k v ≠ none
      refine elimCore_isSome (fun b2 k2 v2 r b3 hs => evolves_eliminateF hs)
        (fun b2 k2 v2 r b3 hs => evolves_assignF hs) ?_ ?_ k v
      · intro b2 k2 w hlt
        omega
      · intro b2 k2 w hlt
        omega
    refine ⟨helim, ?_⟩
    intro b hb k v
    show assignCore (eliminateF 2) b k v ≠ none
    refine assignCore_isSome (fun b2 k2 v2 r b3 hs => evolves_eliminateF hs) ?_ k v
    intro b2 k2 w hle
    exact helim b2 (by omega) k2 w
  | succ t ih =>
    have helim : ∀ b : Board, totalCount b ≤ t + 1 → ∀ k v,
        eliminateF (2 * (t + 1) + 2) b k v ≠ none := by
      intro b hb k v
      have harith : 2 * (t + 1) + 2 = (2 * t + 3) + 1 := by omega
      rw [harith]
      show elimCore (eliminateF (2 * t + 3)) (assignF (2 * t + 3)) b k v ≠ none
      refine elimCore_isSome (fun b2 k2 v2 r b3 hs => evolves_eliminateF hs)
        (fun b2 k2 v2 r b3 hs => evolves_assignF hs) ?_ ?_ k v
      · intro b2 k2 w hlt
        have h2 : eliminateF (2 * t + 2) b2 k2 w ≠ none := ih.1 b2 (by omega) k2 w
        intro hnone
        rcases Option.ne_none_iff_exists.mp h2 with ⟨r, hr⟩
        rw [eliminateF_mono (by omega) hr.symm] at hnone
        exact absurd hnone (by simp)
      · intro b2 k2 w hlt
        exact ih.2 b2 (by omega) k2 w
    refine ⟨helim, ?_⟩
    intro b hb k v
    have harith : 2 * (t + 1) + 3 = (2 * (t + 1) + 2) + 1 := by omega
    rw [harith]
    show assignCore (eliminateF (2 * (t + 1) + 2)) b k v ≠ none
    refine assignCore_isSome (fun b2 k2 v2 r b3 hs => evolves_eliminateF hs) ?_ k v
    intro b2 k2 w hle
    exact helim b2 (by omega) k2 w

/-- `Sudoku::eliminate` on its provably sufficient fuel returns. -/
theorem eliminateF_total (b : Board) (k v : Nat) :
    eliminateF (2 * totalCount b + 2) b k v ≠ none :=
  (fuel_sufficient (totalCount b)).1 b le_rfl k v

/-- `Sudoku::assign` on its provably sufficient fuel returns. -/
theorem assignF_total (b : Board) (k v : Nat) :
    assignF (assignFuel b) b k v ≠ none :=
  (fuel_sufficient (totalCount b)).2 b le_rfl k v

/-- A real elimination (the digit was on) strictly decreases the candidate
total, whether it succeeds or fails. -/
theorem eliminateF_strict_decrease {f : Nat} {b : Board} {k v : Nat} {r : Bool} {b1 : Board}
    (hon : Possible.is_on (Board.cell b k) v = true)
    (h : eliminateF f b k v = some (r, b1)) : totalCount b1 < totalCount b := by
  cases f with
  | zero => exact absurd h (by simp [eliminateF])
  | succ f =>
    have hconv : elimCore (eliminateF f) (assignF f) b k v = some (r, b1) := h
    have hcases := elimCore_some_cases hconv
    have hlt : totalCount (removeAt b k v) < totalCount b := by
      have := totalCount_removeAt hon
      omega
    rcases hcases with ⟨hoff, _⟩ | ⟨_, hrest⟩
    · rw [hon] at hoff
      exact absurd hoff (by simp)
    · rcases hrest with ⟨_, hq⟩ | ⟨_, ⟨bm, hn, hq⟩ | ⟨bm, hn, hq⟩⟩
      · cases hq
        exact hlt
      · cases hq
        exact lt_of_le_of_lt
          (totalCount_mono (nakedRun_evolves (fun b2 k2 v2 r2 b3 hs => evolves_eliminateF hs) hn))
          hlt
      · have hev : Evolves (removeAt b k v) b1 :=
          (nakedRun_evolves (fun b2 k2 v2 r2 b3 hs => evolves_eliminateF hs) hn).trans
            (groupRun_evolves (fun b2 k2 v2 r2 b3 hs => evolves_assignF hs) hq)
        exact lt_of_le_of_lt (totalCount_mono hev) hlt

/-! ## firstTrue and count support lemmas -/

theorem count_cons_bool (b : Bool) (rest : List Bool) :
    Possible.count (b :: rest) = Possible.count rest + (if b = true then 1 else 0) := by
  unfold Possible.count
  rw [List.count_cons]
  cases b <;> simp

theorem firstTrue_none_iff : ∀ l : List Bool, firstTrue l = none ↔ ∀ i, l.getD i false = false := by
  intro l
  induction l with
  | nil => simp [firstTrue]
  | cons b rest ih =>
    cases b with
    | true =>
      have he : firstTrue (true :: rest) = some 0 := rfl
      rw [he]
      constructor
      · intro h; exact absurd h (by simp)
      · intro h
        have h0 := h 0
        rw [List.getD_cons_zero] at h0
        exact absurd h0 (by simp)
    | false =>
      have he : firstTrue (false :: rest) = (firstTrue rest).map (· + 1) := rfl
      rw [he, Option.map_eq_none', ih]
      constructor
      · intro h i
        cases i with
        | zero => simp
        | succ i =>
          rw [List.getD_cons_succ]
          exact h i
      · intro h i
        have h2 := h (i + 1)
        rwa [List.getD_cons_succ] at h2

theorem firstTrue_some_spec :
    ∀ (l : List Bool) (j : Nat), firstTrue l = some j →
      j < l.length ∧ l.getD j false = true ∧ ∀ i, i < j → l.getD i false = false := by
  intro l
  induction l with
  | nil => intro j h; exact absurd h (by simp [firstTrue])
  | cons b rest ih =>
    intro j h
    cases b with
    | true =>
      have he : firstTrue (true :: rest) = some 0 := rfl
      rw [he] at h
      cases h
      exact ⟨by simp, by simp, fun i hi => absurd hi (by omega)⟩
    | false =>
      have he : firstTrue (false :: rest) = (firstTrue rest).map (· + 1) := rfl
      rw [he] at h
      rcases Option.map_eq_some'.mp h with ⟨j0, hj0, hj⟩
      obtain ⟨h1, h2, h3⟩ := ih j0 hj0
      subst hj
      refine ⟨by simpa using h1, by simpa using h2, fun i hi => ?_⟩
      cases i with
      | zero => simp
      | succ i =>
        rw [List.getD_cons_succ]
        exact h3 i (by omega)

theorem exists_true_of_count_pos :
    ∀ l : List Bool, 1 ≤ Possible.count l → ∃ i, i < l.length ∧ l.getD i false = true := by
  intro l
  induction l with
  | nil => intro h; simp [Possible.count] at h
  | cons b rest ih =>
    intro h
    cases b with
    | true => exact ⟨0, by simp, by simp⟩
    | false =>
      rw [count_cons_bool] at h
      simp only [if_neg (by simp : ¬(false = true))] at h
      obtain ⟨i, hi, hg⟩ := ih (by omega)
      exact ⟨i + 1, by simpa using hi, by simpa using hg⟩

theorem exists_two_of_count_two :
    ∀ l : List Bool, 2 ≤ Possible.count l →
      ∃ i j, i < j ∧ j < l.length ∧ l.getD i false = true ∧ l.getD j false = true := by
  intro l
  induction l with
  | nil => intro h; simp [Possible.count] at h
  | cons b rest ih =>
    intro h
    rw [count_cons_bool] at h
    cases b with
    | true =>
      simp at h
      obtain ⟨i, hi, hg⟩ := exists_true_of_count_pos rest (by omega)
      exact ⟨0, i + 1, by omega, by simpa using hi, by simp, by simpa using hg⟩
    | false =>
      simp only [if_neg (by simp : ¬(false = true))] at h
      obtain ⟨i, j, hij, hj, hgi, hgj⟩ := ih (by omega)
      exact ⟨i + 1, j + 1, by omega, by simpa using hj, by simpa using hgi, by simpa using hgj⟩

/-- A cell whose only admitted digit (among 1..9) is `v` has count exactly 1
and `valN` equal to `v`. -/
theorem count_one_of_unique {l : List Bool} {v : Nat} (hlen : l.length ≤ 9) (hv : 1 ≤ v)
    (hon : Possible.is_on l v = true)
    (hoff : ∀ d, 1 ≤ d → d ≤ 9 → d ≠ v → Possible.is_on l d = false) :
    Possible.count l = 1 ∧ Possible.valN l = v := by
  have hvlt : v - 1 < l.length := lt_length_of_is_on hon
  have hv9 : v ≤ 9 := by omega
  have huniq : ∀ j, j < l.length → l.getD j false = true → j = v - 1 := by
    intro j hj hg
    by_contra hne
    have hd : Possible.is_on l (j + 1) = false :=
      hoff (j + 1) (by omega) (by omega) (by omega)
    unfold Possible.is_on at hd
    have hj1 : (j + 1) - 1 = j := by omega
    rw [hj1, hg] at hd
    exact absurd hd (by simp)
  have hcnt : Possible.count l = 1 := by
    have h1 : 1 ≤ Possible.count l := count_pos_of_is_on hon
    by_contra hne
    have h2 : 2 ≤ Possible.count l := by omega
    obtain ⟨i, j, hij, hj, hgi, hgj⟩ := exists_two_of_count_two l h2
    have := huniq i (by omega) hgi
    have := huniq j hj hgj
    omega
  refine ⟨hcnt, ?_⟩
  cases hft : firstTrue l with
  | none =>
    have := (firstTrue_none_iff l).mp hft (v - 1)
    unfold Possible.is_on at hon
    rw [this] at hon
    exact absurd hon (by simp)
  | some j =>
    obtain ⟨hjl, hjg, _⟩ := firstTrue_some_spec l j hft
    have hjv := huniq j hjl hjg
    unfold Possible.valN
    rw [hft]
    show j + 1 = v
    omega

theorem valN_pos_of_count_one {p : Possible} (h : Possible.count p = 1) :
    1 ≤ (Possible.val p).toNat := by
  rw [val_toNat]
  obtain ⟨i, hi, hg⟩ := exists_true_of_count_pos p (by omega)
  cases hft : firstTrue p with
  | none =>
    have := (firstTrue_none_iff p).mp hft i
    rw [hg] at this
    exact absurd this (by simp)
  | some j =>
    unfold Possible.valN
    rw [hft]
    show 1 ≤ j + 1
    omega

/-! ## The group scan counts the admitting cells -/

theorem groupScan_fst_aux (b : Board) (v : Nat) :
    ∀ (cells : List Nat) (q0 : Nat × Nat),
      (cells.foldl
        (fun q p => if Possible.is_on (Board.cell b p) v then (q.1 + 1, p) else q) q0).1 =
      q0.1 + cells.countP (fun p => Possible.is_on (Board.cell b p) v) := by
  intro cells
  induction cells with
  | nil => intro q0; simp
  | cons p t ih =>
    intro q0
    rw [List.foldl_cons, List.countP_cons]
    by_cases hp : Possible.is_on (Board.cell b p) v = true
    · rw [if_pos hp, ih]
      simp [hp]
      omega
    · rw [if_neg hp, ih]
      simp only [Bool.not_eq_true] at hp
      simp [hp]

theorem groupScan_fst (b : Board) (cells : List Nat) (v : Nat) :
    (groupScan b cells v).1 = cells.countP (fun p => Possible.is_on (Board.cell b p) v) := by
  unfold groupScan
  rw [groupScan_fst_aux]
  simp

/-! ## Topology duality: cell membership vs. group membership -/

theorem groupCells_ge {x : Nat} (hx : 27 ≤ x) : groupCells x = [] := by
  unfold groupCells
  rw [if_neg (by omega), if_neg (by omega), if_neg (by omega)]

theorem groupsOfL_ge {k : Nat} (hk : 81 ≤ k) : groupsOfL k = [] := by
  unfold groupsOfL
  rw [if_neg (by omega)]

theorem mem_groupCells_bounds {x k : Nat} (h : k ∈ groupCells x) : x < 27 ∧ k < 81 := by
  by_cases hx : x < 27
  · refine ⟨hx, ?_⟩
    have hdec : ∀ x2 ∈ List.range 27, ∀ k2 ∈ groupCells x2, k2 < 81 := by decide
    exact hdec x (List.mem_range.mpr hx) k h
  · rw [groupCells_ge (by omega)] at h
    exact absurd h (by simp)

theorem mem_groupsOfL_bounds {x k : Nat} (h : x ∈ groupsOfL k) : x < 27 ∧ k < 81 := by
  by_cases hk : k < 81
  · refine ⟨?_, hk⟩
    have hdec : ∀ k2 ∈ List.range 81, ∀ x2 ∈ groupsOfL k2, x2 < 27 := by decide
    exact hdec k (List.mem_range.mpr hk) x h
  · rw [groupsOfL_ge (by omega)] at h
    exact absurd h (by simp)

set_option maxRecDepth 40000 in
theorem mem_groupCells_iff_mem_groupsOfL (x k : Nat) :
    k ∈ groupCells x ↔ x ∈ groupsOfL k := by
  constructor
  · intro h
    obtain ⟨hx, hk⟩ := mem_groupCells_bounds h
    have hdec : ∀ x2 ∈ List.range 27, ∀ k2 ∈ List.range 81,
        k2 ∈ groupCells x2 → x2 ∈ groupsOfL k2 := by decide
    exact hdec x (List.mem_range.mpr hx) k (List.mem_range.mpr hk) h
  · intro h
    obtain ⟨hx, hk⟩ := mem_groupsOfL_bounds h
    have hdec : ∀ k2 ∈ List.range 81, ∀ x2 ∈ List.range 27,
        x2 ∈ groupsOfL k2 → k2 ∈ groupCells x2 := by decide
    exact hdec k (List.mem_range.mpr hk) x (List.mem_range.mpr hx) h

/-! ## Admissibility: every group keeps a cell admitting every digit -/

/-- Group `x` still has a cell admitting digit `d`. -/
def AdmissibleAt (b : Board) (x d : Nat) : Prop :=
  ∃ p ∈ groupCells x, Possible.is_on (Board.cell b p) d = true

theorem AdmissibleAt.mono {b b2 : Board} {x d : Nat} (hev : Evolves b b2)
    (h : AdmissibleAt b2 x d) : AdmissibleAt b x d := by
  obtain ⟨p, hp, hon⟩ := h
  exact ⟨p, hp, hev.is_on_mono hon⟩

theorem one_le_of_mem_digits : ∀ i ∈ digits, 1 ≤ i := by decide

theorem groupRun_adm {asg : Board → Nat → Nat → Option (Bool × Board)} {x d : Nat}
    (hasg : ∀ b k w b1, 1 ≤ w → asg b k w = some (true, b1) →
      AdmissibleAt b x d → AdmissibleAt b1 x d)
    {v k : Nat} (hv : 1 ≤ v) :
    ∀ b2 b1, groupRun asg v k b2 = some (true, b1) →
      AdmissibleAt b2 x d → AdmissibleAt b1 x d := by
  intro b2 b1 h
  refine foldStop_rel_true (fun ba bb => AdmissibleAt ba x d → AdmissibleAt bb x d)
    (fun _ hh => hh) (fun _ _ _ h1 h2 hh => h2 (h1 hh)) _ _ ?_ b1 h
  intro b3 x2 b4 _ hs
  unfold groupStep at hs
  rcases hsc : groupScan b3 (groupCells x2) v with ⟨n, ks⟩
  rw [hsc] at hs
  match n, hs with
  | 0, hs => exact absurd hs (by simp)
  | 1, hs => exact hasg b3 ks v b4 hv hs
  | (m + 2), hs =>
    cases hs
    exact fun hh => hh

theorem nakedRun_adm {el : Board → Nat → Nat → Option (Bool × Board)} {x d : Nat}
    (hel : ∀ b k w b1, 1 ≤ w → el b k w = some (true, b1) →
      AdmissibleAt b x d → AdmissibleAt b1 x d) :
    ∀ bR k bm, nakedRun el bR k = some (true, bm) →
      AdmissibleAt bR x d → AdmissibleAt bm x d := by
  intro bR k bm h
  unfold nakedRun at h
  by_cases hone : Possible.count (Board.cell bR k) = 1
  · rw [if_pos hone] at h
    have hvpos : 1 ≤ (Possible.val (Board.cell bR k)).toNat := valN_pos_of_count_one hone
    refine foldStop_rel_true (fun ba bb => AdmissibleAt ba x d → AdmissibleAt bb x d)
      (fun _ hh => hh) (fun _ _ _ h1 h2 hh => h2 (h1 hh)) _ _ ?_ bm h
    intro b3 k2 b4 _ hs
    exact hel b3 k2 _ b4 hvpos hs
  · rw [if_neg hone] at h
    cases h
    exact fun hh => hh

theorem elimCore_adm {el asg : Board → Nat → Nat → Option (Bool × Board)} {x d : Nat}
    (hd : 1 ≤ d)
    (helE : ∀ b2 k2 v2 r b3, el b2 k2 v2 = some (r, b3) → Evolves b2 b3)
    (hasgE : ∀ b2 k2 v2 r b3, asg b2 k2 v2 = some (r, b3) → Evolves b2 b3)
    (hel : ∀ b k w b1, 1 ≤ w → el b k w = some (true, b1) →
      AdmissibleAt b x d → AdmissibleAt b1 x d)
    (hasg : ∀ b k w b1, 1 ≤ w → asg b k w = some (true, b1) →
      AdmissibleAt b x d → AdmissibleAt b1 x d) :
    ∀ b k v b1, 1 ≤ v → elimCore el asg b k v = some (true, b1) →
      AdmissibleAt b x d → AdmissibleAt b1 x d := by
  intro b k v b1 hv h hadm
  rcases elimCore_some_cases h with ⟨_, hq⟩ | ⟨hon, hrest⟩
  · cases hq
    exact hadm
  · rcases hrest with ⟨_, hq⟩ | ⟨_, ⟨bm, hn, hq⟩ | ⟨bm, hn, hq⟩⟩
    · exact absurd hq (by simp)
    · exact absurd hq (by simp)
    · by_cases hadmR : AdmissibleAt (removeAt b k v) x d
      · exact groupRun_adm hasg hv bm b1 hq (nakedRun_adm hel _ k bm hn hadmR)
      · exfalso
        obtain ⟨p, hp, hpon⟩ := hadm
        have hpq : k = p := by
          by_contra hne
          refine hadmR ⟨p, hp, ?_⟩
          rwa [cell_removeAt_other (fun hh => hne hh.symm)]
        subst hpq
        have hk : k < b.length := lt_board_length_of_is_on hon
        have hoffR : Possible.is_on (Board.cell (removeAt b k v) k) d = false := by
          cases hc : Possible.is_on (Board.cell (removeAt b k v) k) d with
          | true => exact absurd (hadmR ⟨k, hp, hc⟩) (by simp)
          | false => rfl
        have hdv : d = v := by
          rw [cell_removeAt_same hk, is_on_eliminate] at hoffR
          by_cases hc : v - 1 = d - 1
          · omega
          · rw [if_neg hc, hpon] at hoffR
            exact absurd hoffR (by simp)
        subst hdv
        have hxk : x ∈ groupsOfL k := (mem_groupCells_iff_mem_groupsOfL x k).mp hp
        have heach := foldStop_each_true Evolves Evolves.refl (fun _ _ _ => Evolves.trans)
          (fun b2 x2 r b3 hs => groupStep_evolves hasgE d b2 x2 r b3 hs)
          (groupsOfL k) bm b1 hq x hxk
        obtain ⟨bi, bo, hEvmi, hstep, _⟩ := heach
        unfold groupStep at hstep
        rcases hsc : groupScan bi (groupCells x) d with ⟨n, ks⟩
        rw [hsc] at hstep
        have hnpos : 1 ≤ n := by
          match n, hstep with
          | 0, hstep => exact absurd hstep (by simp)
          | (m + 1), _ => omega
        have hcnt := groupScan_fst bi (groupCells x) d
        rw [hsc] at hcnt
        have hex := List.countP_pos_iff
          (p := fun p2 => Possible.is_on (Board.cell bi p2) d) (l := groupCells x) |>.mp (by omega)
        obtain ⟨p2, hp2, hp2on⟩ := hex
        have hp2on : Possible.is_on (Board.cell bi p2) d = true := by simpa using hp2on
        have hEvRm : Evolves (removeAt b k d) bm :=
          nakedRun_evolves helE hn
        exact hadmR ⟨p2, hp2, (hEvRm.trans hEvmi).is_on_mono hp2on⟩

theorem assignCore_adm {el : Board → Nat → Nat → Option (Bool × Board)} {x d : Nat}
    (hel : ∀ b k w b1, 1 ≤ w → el b k w = some (true, b1) →
      AdmissibleAt b x d → AdmissibleAt b1 x d) :
    ∀ b k v b1, assignCore el b k v = some (true, b1) →
      AdmissibleAt b x d → AdmissibleAt b1 x d := by
  intro b k v b1 h
  unfold assignCore at h
  refine foldStop_rel_true (fun ba bb => AdmissibleAt ba x d → AdmissibleAt bb x d)
    (fun _ hh => hh) (fun _ _ _ h1 h2 hh => h2 (h1 hh)) digits b ?_ b1 h
  intro b2 i b3 hi hs
  by_cases hiv : i = v
  · rw [if_pos hiv] at hs
    cases hs
    exact fun hh => hh
  · rw [if_neg hiv] at hs
    exact hel b2 k i b3 (one_le_of_mem_digits i hi) hs

/-- Successful propagation preserves, for every group and every digit
`1..9`, the existence of a cell in the group still admitting the digit. -/
theorem adm_mutual : ∀ (f : Nat) (x d : Nat), 1 ≤ d →
    (∀ b k w b1, 1 ≤ w → eliminateF f b k w = some (true, b1) →
      AdmissibleAt b x d → AdmissibleAt b1 x d) ∧
    (∀ b k w b1, assignF f b k w = some (true, b1) →
      AdmissibleAt b x d → AdmissibleAt b1 x d) := by
  intro f
  induction f with
  | zero =>
    intro x d _
    constructor
    · intro b k w b1 _ h
      exact absurd h (by simp [eliminateF])
    · intro b k w b1 h
      exact absurd h (by simp [assignF])
  | succ f ih =>
    intro x d hd
    constructor
    · intro b k w b1 hw h
      exact elimCore_adm hd (fun b2 k2 v2 r b3 hs => evolves_eliminateF hs)
        (fun b2 k2 v2 r b3 hs => evolves_assignF hs) (ih x d hd).1
        (fun b2 k2 w2 b3 _ hs => (ih x d hd).2 b2 k2 w2 b3 hs) b k w b1 hw h
    · intro b k w b1 h
      exact assignCore_adm (ih x d hd).1 b k w b1 h

/-! ## The naked-single invariant: a solved cell's value is off at its
neighbors -/

/-- Every cell's candidate list has at most 9 entries (true of all boards
the program builds; preserved by propagation). -/
def Shaped9 (b : Board) : Prop := ∀ p, (Board.cell b p).length ≤ 9

theorem Shaped9.evolves {b b2 : Board} (h : Shaped9 b) (hev : Evolves b b2) : Shaped9 b2 :=
  fun p => (hev.2 p).1 ▸ h p

/-- If cell `k` is decided to be `v` (digit `v` on, every other digit off),
then `v` is off at every neighbor of `k`. This is what the naked-single
stage establishes and propagation preserves. -/
def SolvedCellOk (b : Board) (k v : Nat) : Prop :=
  Possible.is_on (Board.cell b k) v = true →
  (∀ d, 1 ≤ d → d ≤ 9 → d ≠ v → Possible.is_on (Board.cell b k) d = false) →
  ∀ j ∈ neighborsOf k, Possible.is_on (Board.cell b j) v = false

/-- Board transfer: evolution together with preservation of `SolvedCellOk`
(under shape). -/
def TransferOk (ba bb : Board) : Prop :=
  Evolves ba bb ∧
  (Shaped9 ba → ∀ k v, 1 ≤ v → SolvedCellOk ba k v → SolvedCellOk bb k v)

theorem transferOk_refl (b : Board) : TransferOk b b :=
  ⟨Evolves.refl b, fun _ _ _ _ hk => hk⟩

theorem transferOk_trans {a b c : Board} (h1 : TransferOk a b) (h2 : TransferOk b c) :
    TransferOk a c := by
  refine ⟨h1.1.trans h2.1, fun hsh k v hv hk => ?_⟩
  exact h2.2 (hsh.evolves h1.1) k v hv (h1.2 hsh k v hv hk)

theorem nakedRun_transferOk {el : Board → Nat → Nat → Option (Bool × Board)}
    (helE : ∀ b2 k2 v2 r b3, el b2 k2 v2 = some (r, b3) → Evolves b2 b3)
    (hel : ∀ b k w b1, 1 ≤ w → Shaped9 b → el b k w = some (true, b1) →
      ∀ k2 v2, 1 ≤ v2 → SolvedCellOk b k2 v2 → SolvedCellOk b1 k2 v2) :
    ∀ bR k bm, nakedRun el bR k = some (true, bm) → TransferOk bR bm := by
  intro bR k bm h
  unfold nakedRun at h
  by_cases hone : Possible.count (Board.cell bR k) = 1
  · rw [if_pos hone] at h
    have hvpos : 1 ≤ (Possible.val (Board.cell bR k)).toNat := valN_pos_of_count_one hone
    refine foldStop_rel_true TransferOk transferOk_refl (fun _ _ _ => transferOk_trans) _ _
      ?_ bm h
    intro b3 k2 b4 _ hs
    exact ⟨helE b3 k2 _ true b4 hs, fun hsh k3 v3 hv3 hk3 =>
      hel b3 k2 _ b4 hvpos hsh hs k3 v3 hv3 hk3⟩
  · rw [if_neg hone] at h
    cases h
    exact transferOk_refl _

theorem groupRun_transferOk {asg : Board → Nat → Nat → Option (Bool × Board)}
    (hasgE : ∀ b2 k2 v2 r b3, asg b2 k2 v2 = some (r, b3) → Evolves b2 b3)
    (hasg : ∀ b k w b1, Shaped9 b → asg b k w = some (true, b1) →
      ∀ k2 v2, 1 ≤ v2 → SolvedCellOk b k2 v2 → SolvedCellOk b1 k2 v2)
    {v k : Nat} :
    ∀ b2 b1, groupRun asg v k b2 = some (true, b1) → TransferOk b2 b1 := by
  intro b2 b1 h
  refine foldStop_rel_true TransferOk transferOk_refl (fun _ _ _ => transferOk_trans) _ _
    ?_ b1 h
  intro b3 x2 b4 _ hs
  unfold groupStep at hs
  rcases hsc : groupScan b3 (groupCells x2) v with ⟨n, ks⟩
  rw [hsc] at hs
  match n, hs with
  | 0, hs => exact absurd hs (by simp)
  | 1, hs =>
    exact ⟨hasgE b3 ks v true b4 hs, fun hsh k3 v3 hv3 hk3 => hasg b3 ks v b4 hsh hs k3 v3 hv3 hk3⟩
  | (m + 2), hs =>
    cases hs
    exact transferOk_refl _

theorem elimCore_solvedok {el asg : Board → Nat → Nat → Option (Bool × Board)}
    (helE : ∀ b2 k2 v2 r b3, el b2 k2 v2 = some (r, b3) → Evolves b2 b3)
    (hasgE : ∀ b2 k2 v2 r b3, asg b2 k2 v2 = some (r, b3) → Evolves b2 b3)
    (hel_off : ∀ b2 k2 w r b3, el b2 k2 w = some (r, b3) →
      Possible.is_on (Board.cell b3 k2) w = false)
    (hel : ∀ b k w b1, 1 ≤ w → Shaped9 b → el b k w = some (true, b1) →
      ∀ k2 v2, 1 ≤ v2 → SolvedCellOk b k2 v2 → SolvedCellOk b1 k2 v2)
    (hasg : ∀ b k w b1, Shaped9 b → asg b k w = some (true, b1) →
      ∀ k2 v2, 1 ≤ v2 → SolvedCellOk b k2 v2 → SolvedCellOk b1 k2 v2) :
    ∀ b k v b1, 1 ≤ v → Shaped9 b → elimCore el asg b k v = some (true, b1) →
      ∀ k2 v2, 1 ≤ v2 → SolvedCellOk b k2 v2 → SolvedCellOk b1 k2 v2 := by
  intro b k v b1 hv hsh h k2 v2 hv2 hP
  intro hOn1 hOff1 j hj
  rcases elimCore_some_cases h with ⟨_, hq⟩ | ⟨hon, hrest⟩
  · cases hq
    exact hP hOn1 hOff1 j hj
  · rcases hrest with ⟨_, hq⟩ | ⟨_, ⟨bm, hn, hq⟩ | ⟨bm, hn, hq⟩⟩
    · exact absurd hq (by simp)
    · exact absurd hq (by simp)
    · have hk : k < b.length := lt_board_length_of_is_on hon
      have hevR : Evolves b (removeAt b k v) := evolves_removeAt hon
      have hevRm : Evolves (removeAt b k v) bm := nakedRun_evolves helE hn
      have hevm1 : Evolves bm b1 := groupRun_evolves hasgE hq
      have hshR : Shaped9 (removeAt b k v) := hsh.evolves hevR
      have hshm : Shaped9 bm := hshR.evolves hevRm
      by_cases hOffR : ∀ d, 1 ≤ d → d ≤ 9 → d ≠ v2 →
          Possible.is_on (Board.cell (removeAt b k v) k2) d = false
      · by_cases hOffB : ∀ d, 1 ≤ d → d ≤ 9 → d ≠ v2 →
            Possible.is_on (Board.cell b k2) d = false
        · have hchain : Evolves b b1 := hevR.trans (hevRm.trans hevm1)
          have hOnB : Possible.is_on (Board.cell b k2) v2 = true := hchain.is_on_mono hOn1
          exact hchain.off_mono (hP hOnB hOffB j hj)
        · push_neg at hOffB
          obtain ⟨d0, hd01, hd09, hd0v, hd0on⟩ := hOffB
          have hd0on2 : Possible.is_on (Board.cell b k2) d0 = true := by
            cases hc : Possible.is_on (Board.cell b k2) d0 with
            | true => rfl
            | false => exact absurd hc hd0on
          have hk2k : k2 = k := by
            by_contra hne
            have h2 := hOffR d0 hd01 hd09 hd0v
            rw [cell_removeAt_other hne, hd0on2] at h2
            exact absurd h2 (by simp)
          subst hk2k
          have hOnR : Possible.is_on (Board.cell (removeAt b k2 v) k2) v2 = true :=
            (hevRm.trans hevm1).is_on_mono hOn1
          obtain ⟨hcnt1, hvalN⟩ := count_one_of_unique (hshR k2) hv2 hOnR hOffR
          unfold nakedRun at hn
          rw [if_pos hcnt1] at hn
          have hdig : (Possible.val (Board.cell (removeAt b k2 v) k2)).toNat = v2 := by
            rw [val_toNat, hvalN]
          rw [hdig] at hn
          obtain ⟨bi, bo, _, hstep, hEvobm⟩ := foldStop_each_true Evolves Evolves.refl
            (fun _ _ _ => Evolves.trans) (fun b2 j2 r b3 hs => helE b2 j2 _ r b3 hs)
            (neighborsOf k2) (removeAt b k2 v) bm hn j hj
          have hoffj : Possible.is_on (Board.cell bo j) v2 = false :=
            hel_off bi j v2 true bo hstep
          exact (hEvobm.trans hevm1).off_mono hoffj
      · have hOkR : SolvedCellOk (removeAt b k v) k2 v2 := fun _ hOff => absurd hOff hOffR
        have ht1 : TransferOk (removeAt b k v) bm := nakedRun_transferOk helE hel _ k bm hn
        have ht2 : TransferOk bm b1 := groupRun_transferOk hasgE hasg bm b1 hq
        exact ht2.2 hshm k2 v2 hv2 (ht1.2 hshR k2 v2 hv2 hOkR) hOn1 hOff1 j hj

theorem assignCore_solvedok {el : Board → Nat → Nat → Option (Bool × Board)}
    (helE : ∀ b2 k2 v2 r b3, el b2 k2 v2 = some (r, b3) → Evolves b2 b3)
    (hel : ∀ b k w b1, 1 ≤ w → Shaped9 b → el b k w = some (true, b1) →
      ∀ k2 v2, 1 ≤ v2 → SolvedCellOk b k2 v2 → SolvedCellOk b1 k2 v2) :
    ∀ b k v b1, Shaped9 b → assignCore el b k v = some (true, b1) →
      ∀ k2 v2, 1 ≤ v2 → SolvedCellOk b k2 v2 → SolvedCellOk b1 k2 v2 := by
  intro b k v b1 hsh h
  have ht : TransferOk b b1 := by
    unfold assignCore at h
    refine foldStop_rel_true TransferOk transferOk_refl (fun _ _ _ => transferOk_trans)
      digits b ?_ b1 h
    intro b2 i b3 hi hs
    by_cases hiv : i = v
    · rw [if_pos hiv] at hs
      cases hs
      exact transferOk_refl b2
    · rw [if_neg hiv] at hs
      exact ⟨helE b2 k i true b3 hs, fun hsh2 k3 v3 hv3 hk3 =>
        hel b2 k i b3 (one_le_of_mem_digits i hi) hsh2 hs k3 v3 hv3 hk3⟩
  exact ht.2 hsh

/-- Successful propagation preserves the naked-single invariant: a decided
cell's value stays eliminated from all of its neighbors. -/
theorem solvedok_mutual : ∀ f : Nat,
    (∀ b k w b1, 1 ≤ w → Shaped9 b → eliminateF f b k w = some (true, b1) →
      ∀ k2 v2, 1 ≤ v2 → SolvedCellOk b k2 v2 → SolvedCellOk b1 k2 v2) ∧
    (∀ b k w b1, Shaped9 b → assignF f b k w = some (true, b1) →
      ∀ k2 v2, 1 ≤ v2 → SolvedCellOk b k2 v2 → SolvedCellOk b1 k2 v2) := by
  intro f
  induction f with
  | zero =>
    constructor
    · intro b k w b1 _ _ h
      exact absurd h (by simp [eliminateF])
    · intro b k w b1 _ h
      exact absurd h (by simp [assignF])
  | succ f ih =>
    constructor
    · intro b k w b1 hw hsh h
      exact elimCore_solvedok (fun b2 k2 v2 r b3 hs => evolves_eliminateF hs)
        (fun b2 k2 v2 r b3 hs => evolves_assignF hs)
        (fun b2 k2 w2 r b3 hs => eliminateF_off hs) ih.1 ih.2 b k w b1 hw hsh h
    · intro b k w b1 hsh h
      exact assignCore_solvedok (fun b2 k2 v2 r b3 hs => evolves_eliminateF hs) ih.1
        b k w b1 hsh h

/-! ## Postconditions of a successful assign -/

theorem mem_digits (n : Nat) : n ∈ digits ↔ 1 ≤ n ∧ n ≤ 9 := by
  simp [digits]
  omega

theorem assignF_off_others {f : Nat} {b : Board} {k v : Nat} {b1 : Board}
    (h : assignF f b k v = some (true, b1)) :
    ∀ i ∈ digits, i ≠ v → Possible.is_on (Board.cell b1 k) i = false := by
  cases f with
  | zero => exact absurd h (by simp [assignF])
  | succ f =>
    intro i hi hne
    have h2 : assignCore (eliminateF f) b k v = some (true, b1) := h
    unfold assignCore at h2
    obtain ⟨bi, bo, _, hstep, hEvo⟩ := foldStop_each_true Evolves Evolves.refl
      (fun _ _ _ => Evolves.trans)
      (fun b2 i2 r b3 hs => by
        by_cases hiv : i2 = v
        · rw [if_pos hiv] at hs
          cases hs
          exact Evolves.refl b2
        · rw [if_neg hiv] at hs
          exact evolves_eliminateF hs)
      digits b b1 h2 i hi
    rw [if_neg hne] at hstep
    exact hEvo.off_mono (eliminateF_off hstep)

theorem assignF_value_on {f : Nat} {b : Board} {k v : Nat} {b1 : Board}
    (hsh : (Board.cell b k).length ≤ 9)
    (hon : Possible.is_on (Board.cell b k) v = true)
    (h : assignF f b k v = some (true, b1)) :
    Possible.is_on (Board.cell b1 k) v = true := by
  have hpos : 1 ≤ Possible.count (Board.cell b1 k) :=
    (keepsPos_mutual f).2 b k v b1 h k (count_pos_of_is_on hon)
  obtain ⟨idx, hlt, hg⟩ := exists_true_of_count_pos _ hpos
  have hlen : (Board.cell b1 k).length = (Board.cell b k).length := ((evolves_assignF h).2 k).1
  have hidx9 : idx < 9 := by omega
  have hiv : idx + 1 = v := by
    by_contra hne
    have hoff := assignF_off_others h (idx + 1) (by rw [mem_digits]; omega) hne
    unfold Possible.is_on at hoff
    have : (idx + 1) - 1 = idx := by omega
    rw [this, hg] at hoff
    exact absurd hoff (by simp)
  unfold Possible.is_on
  have : v - 1 = idx := by omega
  rw [this, hg]

/-! ## is_solved, characterized cell-wise -/

theorem is_solved_iff (b : Board) :
    is_solved b = true ↔ ∀ p, p < b.length → Possible.count (Board.cell b p) = 1 := by
  unfold is_solved
  rw [List.all_eq_true]
  constructor
  · intro h p hp
    have hmem : Board.cell b p ∈ b := by
      unfold Board.cell
      rw [List.getD_eq_getElem?_getD, List.getElem?_eq_getElem hp]
      exact List.getElem_mem _
    have := h _ hmem
    simpa using this
  · intro h c hc
    obtain ⟨p, hp, hcp⟩ := List.mem_iff_getElem.mp hc
    have := h p hp
    unfold Board.cell at this
    rw [List.getD_eq_getElem?_getD, List.getElem?_eq_getElem hp] at this
    simp at this
    rw [hcp] at this
    simpa using this

/-! ## least_count: the most constrained undetermined cell -/

/-- The loop invariant of `Sudoku::least_count` after scanning the first
`n` cells. -/
def LCInv (b : Board) (n : Nat) (q : Int × Nat) : Prop :=
  (q = (-1, 0) ∧ ∀ i, i < n → Possible.count (Board.cell b i) ≤ 1) ∨
  (∃ kk : Nat, q = ((kk : Int), Possible.count (Board.cell b kk)) ∧ kk < n ∧
    2 ≤ Possible.count (Board.cell b kk) ∧
    (∀ i, i < n → 2 ≤ Possible.count (Board.cell b i) →
      Possible.count (Board.cell b kk) ≤ Possible.count (Board.cell b i)) ∧
    (∀ i, i < kk → 2 ≤ Possible.count (Board.cell b i) →
      Possible.count (Board.cell b kk) < Possible.count (Board.cell b i)))

theorem lc_fold_inv (b : Board) : ∀ n : Nat,
    LCInv b n ((List.range n).foldl
      (fun q i =>
        let m := Possible.count (Board.cell b i)
        if m > 1 ∧ (q.1 = -1 ∨ m < q.2) then ((i : Int), m) else q)
      ((-1 : Int), 0)) := by
  intro n
  induction n with
  | zero =>
    left
    exact ⟨by simp, fun i hi => absurd hi (by omega)⟩
  | succ n ih =>
    rw [List.range_succ, List.foldl_append]
    rcases ih with ⟨hq, hall⟩ | ⟨kk, hq, hkk, h2, hmin, hstrict⟩
    · rw [hq]
      simp only [List.foldl_cons, List.foldl_nil]
      by_cases hm : Possible.count (Board.cell b n) > 1
      · rw [if_pos (by constructor <;> simp [hm])]
        right
        refine ⟨n, rfl, by omega, by omega, ?_, ?_⟩
        · intro i hi h2i
          rcases Nat.lt_succ_iff_lt_or_eq.mp hi with hi2 | hi2
          · exact absurd h2i (by have := hall i hi2; omega)
          · subst hi2; exact le_rfl
        · intro i hi h2i
          exact absurd h2i (by have := hall i (by omega); omega)
      · rw [if_neg (by simp; omega)]
        left
        refine ⟨rfl, fun i hi => ?_⟩
        rcases Nat.lt_succ_iff_lt_or_eq.mp hi with hi2 | hi2
        · exact hall i hi2
        · subst hi2; omega
    · rw [hq]
      simp only [List.foldl_cons, List.foldl_nil]
      by_cases hcond : Possible.count (Board.cell b n) > 1 ∧
          ((kk : Int) = -1 ∨ Possible.count (Board.cell b n) < Possible.count (Board.cell b kk))
      · rw [if_pos hcond]
        obtain ⟨hm, hor⟩ := hcond
        have hlt : Possible.count (Board.cell b n) < Possible.count (Board.cell b kk) := by
          rcases hor with habs | h
          · exact absurd habs (by omega)
          · exact h
        right
        refine ⟨n, rfl, by omega, by omega, ?_, ?_⟩
        · intro i hi h2i
          rcases Nat.lt_succ_iff_lt_or_eq.mp hi with hi2 | hi2
          · exact le_of_lt (lt_of_lt_of_le hlt (hmin i hi2 h2i))
          · subst hi2; exact le_rfl
        · intro i hi h2i
          exact lt_of_lt_of_le hlt (hmin i (by omega) h2i)
      · rw [if_neg hcond]
        right
        refine ⟨kk, rfl, by omega, h2, ?_, hstrict⟩
        intro i hi h2i
        rcases Nat.lt_succ_iff_lt_or_eq.mp hi with hi2 | hi2
        · exact hmin i hi2 h2i
        · subst hi2
          rw [not_and_or] at hcond
          rcases hcond with hc | hc
          · omega
          · rw [not_or] at hc
            omega

/-- Full characterization of `Sudoku::least_count`. -/
theorem least_count_spec (b : Board) :
    (least_count b = -1 ∧ ∀ i, i < b.length → Possible.count (Board.cell b i) ≤ 1) ∨
    (∃ kk : Nat, least_count b = (kk : Int) ∧ kk < b.length ∧
      2 ≤ Possible.count (Board.cell b kk) ∧
      (∀ i, i < b.length → 2 ≤ Possible.count (Board.cell b i) →
        Possible.count (Board.cell b kk) ≤ Possible.count (Board.cell b i)) ∧
      (∀ i, i < kk → 2 ≤ Possible.count (Board.cell b i) →
        Possible.count (Board.cell b kk) < Possible.count (Board.cell b i))) := by
  have h := lc_fold_inv b b.length
  unfold least_count
  rcases h with ⟨hq, hall⟩ | ⟨kk, hq, hkk, h2, hmin, hstrict⟩
  · left
    rw [hq]
    exact ⟨rfl, hall⟩
  · right
    exact ⟨kk, by rw [hq], hkk, h2, hmin, hstrict⟩

/-- If `least_count` names a cell, that cell has at least two candidates. -/
theorem least_count_two {b : Board} {kk : Nat} (h : least_count b = (kk : Int)) :
    kk < b.length ∧ 2 ≤ Possible.count (Board.cell b kk) := by
  rcases least_count_spec b with ⟨hm1, _⟩ | ⟨kk2, hq, hlt, h2, _, _⟩
  · rw [h] at hm1
    exact absurd hm1 (by omega)
  · rw [h] at hq
    have : kk = kk2 := by omega
    subst this
    exact ⟨hlt, h2⟩

/-! ## The search engine: solve -/

/-- A successful assign at a cell with at least two candidates strictly
shrinks the candidate total (it really eliminates something). -/
theorem assignF_strict_decrease {f : Nat} {b : Board} {k v : Nat} {b1 : Board}
    (hsh : Shaped9 b) (h2 : 2 ≤ Possible.count (Board.cell b k))
    (h : assignF f b k v = some (true, b1)) : totalCount b1 < totalCount b := by
  obtain ⟨i1, i2, h12, hlen, hg1, hg2⟩ := exists_two_of_count_two _ h2
  have hl9 : (Board.cell b k).length ≤ 9 := hsh k
  have hw : ∃ w, w ∈ digits ∧ w ≠ v ∧ Possible.is_on (Board.cell b k) w = true := by
    by_cases hv1 : i1 + 1 = v
    · refine ⟨i2 + 1, by rw [mem_digits]; omega, by omega, ?_⟩
      unfold Possible.is_on
      have : (i2 + 1) - 1 = i2 := by omega
      rw [this, hg2]
    · refine ⟨i1 + 1, by rw [mem_digits]; omega, hv1, ?_⟩
      unfold Possible.is_on
      have : (i1 + 1) - 1 = i1 := by omega
      rw [this, hg1]
  obtain ⟨w, hwd, hwv, hwon⟩ := hw
  have hoff : Possible.is_on (Board.cell b1 k) w = false := assignF_off_others h w hwd hwv
  have hev : Evolves b b1 := evolves_assignF h
  have hle : totalCount b1 ≤ totalCount b := totalCount_mono hev
  rcases Nat.lt_or_ge (totalCount b1) (totalCount b) with hlt | hge
  · exact hlt
  · exfalso
    have heq : totalCount b1 = totalCount b := by omega
    have hbeq : b1 = b := board_eq_of_evolves_totalCount b b1 hev heq
    rw [hbeq, hwon] at hoff
    exact absurd hoff (by simp)

theorem solveF_succ_none (f : Nat) : solveF (f + 1) none = some none := rfl

theorem solveF_succ_some (f : Nat) (b : Board) :
    solveF (f + 1) (some b) =
      if is_solved b then some (some b)
      else solveLoop f b (least_count b) (possAt b (least_count b)) digits := rfl

theorem solveLoop_succ_nil (f : Nat) (b : Board) (k : Int) (p : Possible) :
    solveLoop (f + 1) b k p [] = some none := rfl

theorem solveLoop_succ_cons (f : Nat) (b : Board) (k : Int) (p : Possible) (i : Nat)
    (rest : List Nat) :
    solveLoop (f + 1) b k p (i :: rest) =
      if Possible.is_on p i then
        match assignF (assignFuel b) b k.toNat i with
        | none => none
        | some (false, _) => solveLoop f b k p rest
        | some (true, b1) =>
          match solveF f (some b1) with
          | none => none
          | some (some b2) => some (some b2)
          | some none => solveLoop f b k p rest
      else solveLoop f b k p rest := rfl

/-- Every board `solve` hands back is solved. -/
theorem solve_output_mutual : ∀ f : Nat,
    (∀ S b2, solveF f S = some (some b2) → is_solved b2 = true) ∧
    (∀ b k p l b2, solveLoop f b k p l = some (some b2) → is_solved b2 = true) := by
  intro f
  induction f with
  | zero =>
    constructor
    · intro S b2 h
      exact absurd h (by simp [solveF])
    · intro b k p l b2 h
      exact absurd h (by simp [solveLoop])
  | succ f ih =>
    constructor
    · intro S b2 h
      cases S with
      | none =>
        rw [solveF_succ_none] at h
        exact absurd h (by simp)
      | some b =>
        rw [solveF_succ_some] at h
        by_cases hs : is_solved b
        · rw [if_pos hs] at h
          cases h
          exact hs
        · rw [if_neg hs] at h
          exact ih.2 _ _ _ _ _ h
    · intro b k p l b2 h
      cases l with
      | nil =>
        rw [solveLoop_succ_nil] at h
        exact absurd h (by simp)
      | cons i rest =>
        rw [solveLoop_succ_cons] at h
        by_cases hion : Possible.is_on p i
        · rw [if_pos hion] at h
          split at h
          · exact absurd h (by simp)
          · exact ih.2 _ _ _ _ _ h
          · split at h
            · exact absurd h (by simp)
            · rename_i b1 hasg b3 hsolve
              cases h
              exact ih.1 _ _ hsolve
            · exact ih.2 _ _ _ _ _ h
        · rw [if_neg hion] at h
          exact ih.2 _ _ _ _ _ h

/-- Fuel monotonicity for the search. -/
theorem solve_step_mutual : ∀ f : Nat,
    (∀ S r, solveF f S = some r → solveF (f + 1) S = some r) ∧
    (∀ b k p l r, solveLoop f b k p l = some r → solveLoop (f + 1) b k p l = some r) := by
  intro f
  induction f with
  | zero =>
    constructor
    · intro S r h
      exact absurd h (by simp [solveF])
    · intro b k p l r h
      exact absurd h (by simp [solveLoop])
  | succ f ih =>
    constructor
    · intro S r h
      cases S with
      | none => exact h
      | some b =>
        rw [solveF_succ_some] at h ⊢
        by_cases hs : is_solved b
        · rwa [if_pos hs] at h ⊢
        · rw [if_neg hs] at h ⊢
          exact ih.2 _ _ _ _ _ h
    · intro b k p l r h
      cases l with
      | nil => exact h
      | cons i rest =>
        rw [solveLoop_succ_cons] at h ⊢
        by_cases hion : Possible.is_on p i
        · rw [if_pos hion] at h ⊢
          split at h
          · exact absurd h (by simp)
          · exact ih.2 _ _ _ _ _ h
          · split at h
            · exact absurd h (by simp)
            · rename_i b3 hsolve
              rw [ih.1 _ _ hsolve]
              exact h
            · rename_i hsolve
              rw [ih.1 _ _ hsolve]
              exact ih.2 _ _ _ _ _ h
        · rw [if_neg hion] at h ⊢
          exact ih.2 _ _ _ _ _ h

theorem solveF_add {f : Nat} (d : Nat) {S : Option Board} {r : Option Board}
    (h : solveF f S = some r) : solveF (f + d) S = some r := by
  induction d with
  | zero => exact h
  | succ d ih => exact (solve_step_mutual (f + d)).1 S r ih

theorem solveF_mono {f g : Nat} (hfg : f ≤ g) {S : Option Board} {r : Option Board}
    (h : solveF f S = some r) : solveF g S = some r := by
  obtain ⟨d, rfl⟩ := Nat.exists_eq_add_of_le hfg
  exact solveF_add d h

theorem digits_length : digits.length = 9 := rfl

theorem solveLoop_not_none :
    ∀ (l : List Nat) (f : Nat) (b : Board) (k : Int) (p : Possible),
      Shaped9 b →
      (∀ i, Possible.is_on p i = true →
        Possible.is_on (Board.cell b (Int.toNat k)) i = true ∧
        2 ≤ Possible.count (Board.cell b (Int.toNat k))) →
      (∀ b1 f2, Shaped9 b1 → totalCount b1 < totalCount b →
        11 * totalCount b1 + 11 ≤ f2 → solveF f2 (some b1) ≠ none) →
      11 * totalCount b + l.length + 1 ≤ f →
      solveLoop f b k p l ≠ none := by
  intro l
  induction l with
  | nil =>
    intro f b k p _ _ _ hf
    cases f with
    | zero => omega
    | succ f =>
      rw [solveLoop_succ_nil]
      simp
  | cons i rest ih =>
    intro f b k p hsh hpk hrec hf
    cases f with
    | zero => omega
    | succ f =>
      rw [solveLoop_succ_cons]
      by_cases hion : Possible.is_on p i
      · rw [if_pos hion]
        cases ha : assignF (assignFuel b) b k.toNat i with
        | none => exact absurd ha (assignF_total b k.toNat i)
        | some q =>
          obtain ⟨flag, b1⟩ := q
          cases flag with
          | false =>
            show solveLoop f b k p rest ≠ none
            refine ih f b k p hsh hpk hrec ?_
            simp at hf ⊢
            omega
          | true =>
            show (match solveF f (some b1) with
              | none => none
              | some (some b2) => some (some b2)
              | some none => solveLoop f b k p rest) ≠ none
            have hlt : totalCount b1 < totalCount b :=
              assignF_strict_decrease hsh (hpk i hion).2 ha
            have hsh1 : Shaped9 b1 := hsh.evolves (evolves_assignF ha)
            cases hs : solveF f (some b1) with
            | none =>
              exfalso
              refine hrec b1 f hsh1 hlt ?_ hs
              simp at hf
              omega
            | some o =>
              cases o with
              | none =>
                show solveLoop f b k p rest ≠ none
                refine ih f b k p hsh hpk hrec ?_
                simp at hf ⊢
                omega
              | some b3 => simp
      · rw [if_neg hion]
        refine ih f b k p hsh hpk hrec ?_
        simp at hf ⊢
        omega

theorem solveF_suff_aux :
    ∀ n : Nat, ∀ b : Board, Shaped9 b → totalCount b < n →
      ∀ f, 11 * totalCount b + 11 ≤ f → solveF f (some b) ≠ none := by
  intro n
  induction n with
  | zero => intro b _ h; omega
  | succ n ih =>
    intro b hsh hbn f hf
    obtain ⟨f1, rfl⟩ : ∃ f1, f = f1 + 1 := ⟨f - 1, by omega⟩
    rw [solveF_succ_some]
    by_cases hs : is_solved b
    · rw [if_pos hs]
      simp
    · rw [if_neg hs]
      refine solveLoop_not_none digits f1 b (least_count b) (possAt b (least_count b)) hsh
        ?_ ?_ ?_
      · intro i hion
        unfold possAt at hion
        by_cases hneg : least_count b < 0
        · rw [if_pos hneg] at hion
          unfold Possible.is_on at hion
          simp at hion
        · rw [if_neg hneg] at hion
          refine ⟨hion, ?_⟩
          have hnn : least_count b = ((least_count b).toNat : Int) :=
            (Int.toNat_of_nonneg (by omega)).symm
          exact (least_count_two hnn).2
      · intro b1 f2 hsh1 hlt hf2
        exact ih b1 hsh1 (by omega) f2 hf2
      · rw [digits_length]
        omega

/-- The fuel on which the search provably returns. -/
def solveFuel (b : Board) : Nat := 11 * totalCount b + 11

/-- On a board of bounded cell size, the search always returns given fuel
`solveFuel`. -/
theorem solveF_total (b : Board) (hsh : Shaped9 b) : solveF (solveFuel b) (some b) ≠ none :=
  solveF_suff_aux (totalCount b + 1) b hsh (by omega) _ le_rfl

/-! ## Admissibility and shape survive the search -/

/-- Every one of the 27 groups admits every digit 1..9 somewhere. -/
def Admissible (b : Board) : Prop :=
  ∀ x ∈ List.range 27, ∀ d ∈ digits, AdmissibleAt b x d

theorem assignF_admissible {f : Nat} {b : Board} {k v : Nat} {b1 : Board}
    (h : assignF f b k v = some (true, b1)) (hadm : Admissible b) : Admissible b1 := by
  intro x hx d hd
  exact (adm_mutual f x d (one_le_of_mem_digits d hd)).2 b k v b1 h (hadm x hx d hd)

theorem solve_preserves_mutual : ∀ f : Nat,
    (∀ b b2, Admissible b → Shaped9 b → solveF f (some b) = some (some b2) →
      Admissible b2 ∧ Shaped9 b2 ∧ b2.length = b.length) ∧
    (∀ b k p l b2, Admissible b → Shaped9 b → solveLoop f b k p l = some (some b2) →
      Admissible b2 ∧ Shaped9 b2 ∧ b2.length = b.length) := by
  intro f
  induction f with
  | zero =>
    constructor
    · intro b b2 _ _ h
      exact absurd h (by simp [solveF])
    · intro b k p l b2 _ _ h
      exact absurd h (by simp [solveLoop])
  | succ f ih =>
    constructor
    · intro b b2 hadm hsh h
      rw [solveF_succ_some] at h
      by_cases hs : is_solved b
      · rw [if_pos hs] at h
        cases h
        exact ⟨hadm, hsh, rfl⟩
      · rw [if_neg hs] at h
        exact ih.2 _ _ _ _ _ hadm hsh h
    · intro b k p l b2 hadm hsh h
      cases l with
      | nil =>
        rw [solveLoop_succ_nil] at h
        exact absurd h (by simp)
      | cons i rest =>
        rw [solveLoop_succ_cons] at h
        by_cases hion : Possible.is_on p i
        · rw [if_pos hion] at h
          split at h
          · exact absurd h (by simp)
          · exact ih.2 _ _ _ _ _ hadm hsh h
          · rename_i b1 hasg
            have hadm1 : Admissible b1 := assignF_admissible hasg hadm
            have hev1 : Evolves b b1 := evolves_assignF hasg
            have hsh1 : Shaped9 b1 := hsh.evolves hev1
            split at h
            · exact absurd h (by simp)
            · rename_i b3 hsolve
              cases h
              obtain ⟨ha2, hs2, hl2⟩ := ih.1 _ _ hadm1 hsh1 hsolve
              exact ⟨ha2, hs2, hl2.trans hev1.1⟩
            · exact ih.2 _ _ _ _ _ hadm hsh h
        · rw [if_neg hion] at h
          exact ih.2 _ _ _ _ _ hadm hsh h

/-! ## Solved and admissible boards are valid Sudoku grids -/

/-- Every group contains every digit exactly once (values read through
`valN`, the sole candidate of each cell). -/
def Valid27 (b : Board) : Prop :=
  ∀ x ∈ List.range 27, ∀ d ∈ digits,
    ((groupCells x).map (fun p => Possible.valN (Board.cell b p))).count d = 1

theorem count_eq_zero_no_true {l : List Bool} (h : Possible.count l = 0) :
    ∀ i, l.getD i false = false := by
  intro i
  cases hc : l.getD i false with
  | false => rfl
  | true =>
    exfalso
    have hmem : true ∈ l := by
      rw [List.getD_eq_getElem?_getD] at hc
      cases hg : l[i]? with
      | none => rw [hg] at hc; exact absurd hc (by simp)
      | some a =>
        rw [hg] at hc
        simp at hc
        subst hc
        obtain ⟨hlt, hgg⟩ := List.getElem?_eq_some.mp hg
        rw [← hgg]
        exact List.getElem_mem _
    unfold Possible.count at h
    have := List.count_pos_iff.mpr hmem
    omega

theorem unique_true_of_count_one :
    ∀ l : List Bool, Possible.count l = 1 →
      ∀ i j, l.getD i false = true → l.getD j false = true → i = j := by
  intro l
  induction l with
  | nil => intro _ i j hi; simp at hi
  | cons b t ih =>
    intro h i j hi hj
    rw [count_cons_bool] at h
    cases b with
    | true =>
      simp at h
      have hno := count_eq_zero_no_true (l := t) (by unfold Possible.count at h ⊢; omega)
      cases i with
      | zero =>
        cases j with
        | zero => rfl
        | succ j =>
          rw [List.getD_cons_succ] at hj
          rw [hno j] at hj
          exact absurd hj (by simp)
      | succ i =>
        rw [List.getD_cons_succ] at hi
        rw [hno i] at hi
        exact absurd hi (by simp)
    | false =>
      simp at h
      cases i with
      | zero => rw [List.getD_cons_zero] at hi; exact absurd hi (by simp)
      | succ i =>
        cases j with
        | zero => rw [List.getD_cons_zero] at hj; exact absurd hj (by simp)
        | succ j =>
          rw [List.getD_cons_succ] at hi hj
          have := ih h i j hi hj
          omega

theorem valN_mem_digits {p : Possible} (hlen : p.length ≤ 9) (hc : Possible.count p = 1) :
    Possible.valN p ∈ digits := by
  obtain ⟨i, hi, hg⟩ := exists_true_of_count_pos p (by omega)
  cases hft : firstTrue p with
  | none =>
    have := (firstTrue_none_iff p).mp hft i
    rw [hg] at this
    exact absurd this (by simp)
  | some j =>
    obtain ⟨hjl, _, _⟩ := firstTrue_some_spec p j hft
    unfold Possible.valN
    rw [hft]
    show j + 1 ∈ digits
    rw [mem_digits]
    omega

theorem valN_eq_of_is_on_count_one {p : Possible} {d : Nat} (hd : 1 ≤ d)
    (hc : Possible.count p = 1) (hon : Possible.is_on p d = true) :
    Possible.valN p = d := by
  cases hft : firstTrue p with
  | none =>
    have := (firstTrue_none_iff p).mp hft (d - 1)
    unfold Possible.is_on at hon
    rw [this] at hon
    exact absurd hon (by simp)
  | some j =>
    obtain ⟨hjl, hjg, _⟩ := firstTrue_some_spec p j hft
    unfold Possible.is_on at hon
    have := unique_true_of_count_one p hc j (d - 1) hjg hon
    unfold Possible.valN
    rw [hft]
    show j + 1 = d
    omega

theorem counts_sum_digits :
    ∀ L : List Nat, (∀ e ∈ L, e ∈ digits) →
      L.count 1 + L.count 2 + L.count 3 + L.count 4 + L.count 5 + L.count 6 + L.count 7 +
        L.count 8 + L.count 9 = L.length := by
  intro L
  induction L with
  | nil => intro _; simp
  | cons e t ih =>
    intro h
    obtain ⟨he1, he9⟩ := (mem_digits e).mp (h e (by simp))
    have ht := ih fun e2 he2 => h e2 (by simp [he2])
    simp only [List.count_cons, List.length_cons]
    interval_cases e <;> simp <;> omega

theorem pigeonhole_nine {L : List Nat} (hlen : L.length = 9) (hmem : ∀ e ∈ L, e ∈ digits)
    (hall : ∀ d ∈ digits, d ∈ L) : ∀ d ∈ digits, L.count d = 1 := by
  have hsum := counts_sum_digits L hmem
  have hpos : ∀ d2 ∈ digits, 1 ≤ L.count d2 := by
    intro d2 hd2
    have := List.count_pos_iff.mpr (hall d2 hd2)
    omega
  have h1 := hpos 1 (by decide)
  have h2 := hpos 2 (by decide)
  have h3 := hpos 3 (by decide)
  have h4 := hpos 4 (by decide)
  have h5 := hpos 5 (by decide)
  have h6 := hpos 6 (by decide)
  have h7 := hpos 7 (by decide)
  have h8 := hpos 8 (by decide)
  have h9 := hpos 9 (by decide)
  intro d hd
  obtain ⟨hda, hdb⟩ := (mem_digits d).mp hd
  interval_cases d <;> omega

theorem groupCells_length : ∀ x ∈ List.range 27, (groupCells x).length = 9 := by decide

/-- A solved board in which every group still admits every digit is a valid
grid: each group holds each digit exactly once. -/
theorem solved_admissible_valid {b : Board} (hadm : Admissible b) (hsh : Shaped9 b)
    (hlen : b.length = 81) (hs : is_solved b = true) : Valid27 b := by
  intro x hx d hd
  have hsolved := (is_solved_iff b).mp hs
  have hL : ((groupCells x).map (fun p => Possible.valN (Board.cell b p))).length = 9 := by
    rw [List.length_map]
    exact groupCells_length x hx
  refine pigeonhole_nine hL ?_ ?_ d hd
  · intro e he
    rw [List.mem_map] at he
    obtain ⟨p, hp, hpe⟩ := he
    have hp81 : p < 81 := (mem_groupCells_bounds hp).2
    have hc1 : Possible.count (Board.cell b p) = 1 := hsolved p (by omega)
    rw [← hpe]
    exact valN_mem_digits (hsh p) hc1
  · intro d2 hd2
    obtain ⟨p, hp, hon⟩ := hadm x hx d2 hd2
    have hp81 : p < 81 := (mem_groupCells_bounds hp).2
    have hc1 : Possible.count (Board.cell b p) = 1 := hsolved p (by omega)
    rw [List.mem_map]
    exact ⟨p, hp, valN_eq_of_is_on_count_one (one_le_of_mem_digits d2 hd2) hc1 hon⟩

instance (b : Board) (x d : Nat) : Decidable (AdmissibleAt b x d) := by
  unfold AdmissibleAt
  exact inferInstance

instance (b : Board) : Decidable (Admissible b) := by
  unfold Admissible
  exact inferInstance

instance (b : Board) : Decidable (Valid27 b) := by
  unfold Valid27
  exact inferInstance

theorem shaped9_of_forall_mem {b : Board} (h : ∀ p ∈ b, p.length ≤ 9) : Shaped9 b := by
  intro p
  unfold Board.cell
  by_cases hp : p < b.length
  · rw [List.getD_eq_getElem?_getD, List.getElem?_eq_getElem hp]
    exact h _ (List.getElem_mem _)
  · rw [List.getD_eq_default _ _ (by omega)]
    simp

/-! ## The constructor scan, step by step -/

theorem parseChars_cons (c : Char) (rest : List Char) (b : Board) (k : Nat) :
    parseChars (c :: rest) b k =
      if '1' ≤ c ∧ c ≤ '9' then
        match assignF (assignFuel b) b k (c.toNat - '0'.toNat) with
        | some (true, b1) => parseChars rest b1 (k + 1)
        | some (false, b1) => b1
        | none => b
      else if c = '0' ∨ c = '.' then parseChars rest b (k + 1)
      else parseChars rest b k := rfl

theorem parseChars_digit_true {c : Char} (rest : List Char) {b : Board} {k : Nat} {b1 : Board}
    (hc : '1' ≤ c ∧ c ≤ '9')
    (ha : assignF (assignFuel b) b k (c.toNat - '0'.toNat) = some (true, b1)) :
    parseChars (c :: rest) b k = parseChars rest b1 (k + 1) := by
  rw [parseChars_cons, if_pos hc, ha]

theorem parseChars_digit_false {c : Char} (rest : List Char) {b : Board} {k : Nat} {b1 : Board}
    (hc : '1' ≤ c ∧ c ≤ '9')
    (ha : assignF (assignFuel b) b k (c.toNat - '0'.toNat) = some (false, b1)) :
    parseChars (c :: rest) b k = b1 := by
  rw [parseChars_cons, if_pos hc, ha]

theorem parseChars_blank {c : Char} (rest : List Char) (b : Board) (k : Nat)
    (hc : c = '0' ∨ c = '.') :
    parseChars (c :: rest) b k = parseChars rest b (k + 1) := by
  have hnd : ¬('1' ≤ c ∧ c ≤ '9') := by
    rcases hc with hc | hc <;> subst hc <;> decide
  rw [parseChars_cons, if_neg hnd, if_pos hc]

theorem parseChars_skip {c : Char} (rest : List Char) (b : Board) (k : Nat)
    (hnd : ¬('1' ≤ c ∧ c ≤ '9')) (hnb : ¬(c = '0' ∨ c = '.')) :
    parseChars (c :: rest) b k = parseChars rest b k := by
  rw [parseChars_cons, if_neg hnd, if_neg hnb]

/-! ## The candidate loop of solve, observationally -/

/-- Branch `i` at the branching cell fails: either the assign contradicts,
or the recursive search (run on its sufficient fuel) finds no solution. -/
def branchFails (b : Board) (k : Int) (i : Nat) : Prop :=
  (∃ b2, assignF (assignFuel b) b (Int.toNat k) i = some (false, b2)) ∨
  (∃ b1, assignF (assignFuel b) b (Int.toNat k) i = some (true, b1) ∧
    solveF (solveFuel b1) (some b1) = some none)

/-- Branch `i` at the branching cell succeeds with solved board `r`. -/
def branchSolves (b : Board) (k : Int) (i : Nat) (r : Board) : Prop :=
  ∃ b1, assignF (assignFuel b) b (Int.toNat k) i = some (true, b1) ∧
    solveF (solveFuel b1) (some b1) = some (some r)

theorem solveLoop_all_fail :
    ∀ (l : List Nat) (f : Nat) (b : Board) (k : Int) (p : Possible),
      Shaped9 b →
      (∀ i, Possible.is_on p i = true →
        Possible.is_on (Board.cell b (Int.toNat k)) i = true ∧
        2 ≤ Possible.count (Board.cell b (Int.toNat k))) →
      11 * totalCount b + l.length + 1 ≤ f →
      (∀ i ∈ l, Possible.is_on p i = true → branchFails b k i) →
      solveLoop f b k p l = some none := by
  intro l
  induction l with
  | nil =>
    intro f b k p _ _ hf _
    obtain ⟨f1, rfl⟩ : ∃ f1, f = f1 + 1 := ⟨f - 1, by omega⟩
    exact solveLoop_succ_nil f1 b k p
  | cons i rest ih =>
    intro f b k p hsh hpk hf hfail
    obtain ⟨f1, rfl⟩ : ∃ f1, f = f1 + 1 := ⟨f - 1, by omega⟩
    rw [solveLoop_succ_cons]
    by_cases hion : Possible.is_on p i
    · rw [if_pos hion]
      rcases hfail i (by simp) hion with ⟨b2, ha⟩ | ⟨b1, ha, hnone⟩
      · rw [ha]
        refine ih f1 b k p hsh hpk (by simp at hf ⊢; omega)
          (fun j hj hjon => hfail j (by simp [hj]) hjon)
      · rw [ha]
        have hlt : totalCount b1 < totalCount b :=
          assignF_strict_decrease hsh (hpk i hion).2 ha
        have hmono : solveF f1 (some b1) = some none := by
          refine solveF_mono ?_ hnone
          unfold solveFuel
          simp at hf
          omega
        show (match solveF f1 (some b1) with
          | none => none
          | some (some b2) => some (some b2)
          | some none => solveLoop f1 b k p rest) = some none
        rw [hmono]
        refine ih f1 b k p hsh hpk (by simp at hf ⊢; omega)
          (fun j hj hjon => hfail j (by simp [hj]) hjon)
    · rw [if_neg hion]
      refine ih f1 b k p hsh hpk (by simp at hf ⊢; omega)
        (fun j hj hjon => hfail j (by simp [hj]) hjon)

theorem solveLoop_first_solution :
    ∀ (l : List Nat) (f : Nat) (b : Board) (k : Int) (p : Possible) (i : Nat) (r : Board),
      Shaped9 b →
      (∀ i2, Possible.is_on p i2 = true →
        Possible.is_on (Board.cell b (Int.toNat k)) i2 = true ∧
        2 ≤ Possible.count (Board.cell b (Int.toNat k))) →
      11 * totalCount b + l.length + 1 ≤ f →
      List.Pairwise (· < ·) l →
      i ∈ l → Possible.is_on p i = true → branchSolves b k i r →
      (∀ j ∈ l, j < i → Possible.is_on p j = true → branchFails b k j) →
      solveLoop f b k p l = some (some r) := by
  intro l
  induction l with
  | nil =>
    intro f b k p i r _ _ _ _ hi
    exact absurd hi (by simp)
  | cons j rest ih =>
    intro f b k p i r hsh hpk hf hpw hi hion hsolves hfail
    obtain ⟨f1, rfl⟩ : ∃ f1, f = f1 + 1 := ⟨f - 1, by omega⟩
    rw [solveLoop_succ_cons]
    rcases List.mem_cons.mp hi with rfl | hirest
    · rw [if_pos hion]
      obtain ⟨b1, ha, hsome⟩ := hsolves
      rw [ha]
      have hlt : totalCount b1 < totalCount b :=
        assignF_strict_decrease hsh (hpk i hion).2 ha
      have hmono : solveF f1 (some b1) = some (some r) := by
        refine solveF_mono ?_ hsome
        unfold solveFuel
        simp at hf
        omega
      show (match solveF f1 (some b1) with
        | none => none
        | some (some b2) => some (some b2)
        | some none => solveLoop f1 b k p rest) = some (some r)
      rw [hmono]
    · have hji : j < i := (List.pairwise_cons.mp hpw).1 i hirest
      have hrec : solveLoop f1 b k p rest = some (some r) := by
        refine ih f1 b k p i r hsh hpk (by simp at hf ⊢; omega)
          (List.pairwise_cons.mp hpw).2 hirest hion hsolves
          (fun j2 hj2 hj2i hj2on => hfail j2 (by simp [hj2]) hj2i hj2on)
      by_cases hjon : Possible.is_on p j
      · rw [if_pos hjon]
        rcases hfail j (by simp) hji hjon with ⟨b2, ha⟩ | ⟨b1, ha, hnone⟩
        · rw [ha]
          exact hrec
        · rw [ha]
          have hlt : totalCount b1 < totalCount b :=
            assignF_strict_decrease hsh (hpk j hjon).2 ha
          have hmono : solveF f1 (some b1) = some none := by
            refine solveF_mono ?_ hnone
            unfold solveFuel
            simp at hf
            omega
          show (match solveF f1 (some b1) with
            | none => none
            | some (some b2) => some (some b2)
            | some none => solveLoop f1 b k p rest) = some (some r)
          rw [hmono]
          exact hrec
      · rw [if_neg hjon]
        exact hrec

/-- The branching-cell facts `solve` relies on: every digit on in the
snapshot is on at the `least_count` cell, which has at least 2 candidates. -/
theorem possAt_least_count (b : Board) :
    ∀ i, Possible.is_on (possAt b (least_count b)) i = true →
      Possible.is_on (Board.cell b (Int.toNat (least_count b))) i = true ∧
      2 ≤ Possible.count (Board.cell b (Int.toNat (least_count b))) := by
  intro i hion
  unfold possAt at hion
  by_cases hneg : least_count b < 0
  · rw [if_pos hneg] at hion
    unfold Possible.is_on at hion
    simp at hion
  · rw [if_neg hneg] at hion
    refine ⟨hion, ?_⟩
    have hnn : least_count b = ((least_count b).toNat : Int) :=
      (Int.toNat_of_nonneg (by omega)).symm
    exact (least_count_two hnn).2

/-! ## Concrete boards for witnesses and counterexamples -/

/-- The candidate set `{d}` (exactly digit `d` on). -/
def sing (d : Nat) : Possible := (List.range 9).map (fun j => j == d - 1)

/-- The candidate set `{1, 2}`. -/
def cell12 : Possible := [true, true, false, false, false, false, false, false, false]

/-- The candidate set `{8, 9}`. -/
def cell89 : Possible := [false, false, false, false, false, false, false, true, true]

/-- A valid complete Sudoku grid (rows are shifted copies of 1..9). -/
def gridRows : List (List Nat) :=
  [[1,2,3,4,5,6,7,8,9],[4,5,6,7,8,9,1,2,3],[7,8,9,1,2,3,4,5,6],
   [2,3,4,5,6,7,8,9,1],[5,6,7,8,9,1,2,3,4],[8,9,1,2,3,4,5,6,7],
   [3,4,5,6,7,8,9,1,2],[6,7,8,9,1,2,3,4,5],[9,1,2,3,4,5,6,7,8]]

/-- That grid as a solved `Board` of singleton candidate sets. -/
def gridB : Board := gridRows.flatten.map sing

/-- The grid with cell 0 reopened to `{1, 2}`. -/
def gridB2 : Board := gridB.set 0 cell12

/-- The grid with cell 80 reopened to `{8, 9}` (true value 8). -/
def nearGrid : Board := gridB.set 80 cell89

/-- 81 copies of `{1}`: "solved" by the count criterion but not a valid
grid. -/
def onesB : Board := List.replicate 81 (sing 1)

/-- A one-cell board whose cell is `{1}`. -/
def oneCell1 : Board := [sing 1]

/-- A one-cell board whose cell is `{1, 2}`. -/
def oneCell12 : Board := [cell12]

/-- A one-cell board with an empty candidate set. -/
def deadCell : Board := [List.replicate 9 false]

/-- A three-cell board: `{1}`, `{1,2}`, full. -/
def triCell : Board := [sing 1, cell12, Possible.full]

/-- A two-cell board: `{1}` and a full cell (a row-0 peer still admitting 1). -/
def pairB : Board := [sing 1, Possible.full]

/-! ## The claims -/

/-- C1, counterexample: the claim as stated — "for every Board that solve
returns as solved, each of the 27 groups contains each digit exactly once"
— fails on the all-`{1}` board: `solve` returns it unchanged (every cell's
count is 1, so `is_solved` holds) yet group 0 holds digit 1 nine times and
digit 2 never. -/
theorem C1_counterexample :
    solveF 1 (some onesB) = some (some onesB) ∧ is_solved onesB = true ∧ ¬ Valid27 onesB :=
  ⟨by decide, by decide, by decide⟩

/-- C1, amended: for every admissible Board (each of the 27 groups still
admits each digit 1..9 somewhere — true of every board propagation builds
from the full board) of the right shape, any Board that `solve` returns is
solved and each of the 27 groups contains each digit 1..9 exactly once. -/
theorem C1_solve_returns_valid {f : Nat} {b b2 : Board}
    (hadm : Admissible b) (hsh : Shaped9 b) (hlen : b.length = 81)
    (h : solveF f (some b) = some (some b2)) :
    is_solved b2 = true ∧ Valid27 b2 := by
  have hs := (solve_output_mutual f).1 _ _ h
  obtain ⟨ha2, hs2, hl2⟩ := (solve_preserves_mutual f).1 b b2 hadm hsh h
  exact ⟨hs, solved_admissible_valid ha2 hs2 (by omega) hs⟩

/-- C1, witness: the amended theorem applied to the concrete valid grid. -/
theorem C1_witness : is_solved gridB = true ∧ Valid27 gridB :=
  C1_solve_returns_valid (f := 1) (b := gridB) (by decide)
    (shaped9_of_forall_mem (by decide)) (by decide) (by decide)

/-- C2: `eliminate` fails exactly through the code's three channels, all
signalled by the boolean component of the returned value (the embedding's
result type has no exception escape): (a) if removing the digit leaves the
cell with zero candidates, the call returns `false` with that board;
(b) if some group of the cell admits the digit only at the cell itself, any
returning call returns `false` (the "group exhausted" check, possibly after
a failed recursive call); (c) on the provably sufficient fuel the call
always returns a boolean. -/
theorem C2_eliminate_failure_modes (f : Nat) (b : Board) (k v : Nat)
    (hv : 1 ≤ v) (hon : Possible.is_on (Board.cell b k) v = true) :
    (Possible.count (Board.cell (removeAt b k v) k) = 0 →
      eliminateF (f + 1) b k v = some (false, removeAt b k v)) ∧
    ((∃ x ∈ groupsOfL k, ∀ p ∈ groupCells x,
        Possible.is_on (Board.cell b p) v = true → p = k) →
      ∀ r b1, eliminateF f b k v = some (r, b1) → r = false) ∧
    eliminateF (2 * totalCount b + 2) b k v ≠ none := by
  refine ⟨?_, ?_, eliminateF_total b k v⟩
  · intro hz
    show elimCore (eliminateF f) (assignF f) b k v = some (false, removeAt b k v)
    unfold elimCore
    rw [if_pos hon]
    simp only []
    rw [if_pos hz]
  · rintro ⟨x, hx, honly⟩ r b1 h
    cases r with
    | false => rfl
    | true =>
      exfalso
      have hkx : k ∈ groupCells x := (mem_groupCells_iff_mem_groupsOfL x k).mpr hx
      have hadm : AdmissibleAt b x v := ⟨k, hkx, hon⟩
      cases f with
      | zero => exact absurd h (by simp [eliminateF])
      | succ f2 =>
        have hadm1 : AdmissibleAt b1 x v :=
          (adm_mutual (f2 + 1) x v hv).1 b k v b1 hv h hadm
        obtain ⟨p, hp, hpon⟩ := hadm1
        have hpon_b : Possible.is_on (Board.cell b p) v = true :=
          (evolves_eliminateF h).is_on_mono hpon
        have hpk : p = k := honly p hp hpon_b
        rw [hpk] at hpon
        rw [eliminateF_off h] at hpon
        exact absurd hpon (by simp)

/-- C2, witness: on the one-cell board `{1}`, removing digit 1 empties the
cell, so the call fails with exactly that board; and the sufficient fuel
never exhausts. -/
theorem C2_witness :
    eliminateF 3 oneCell1 0 1 = some (false, removeAt oneCell1 0 1) ∧
    eliminateF (2 * totalCount oneCell1 + 2) oneCell1 0 1 ≠ none := by
  have h := C2_eliminate_failure_modes 2 oneCell1 0 1 (by decide) (by decide)
  exact ⟨h.1 (by decide), h.2.2⟩

/-- C3: behaviour of `solve`. (1) a null board is returned unchanged;
(2) a solved board is returned unchanged; (3) every board it hands back is
solved; (4) on an unsolved board it branches at `least_count` with the
candidate snapshot taken there, scanning digits 1..9; (5) if every
candidate digit's branch fails, it returns none; (6) it returns the first
candidate digit's solution, without trying further digits. -/
theorem C3_solve_structure (f : Nat) (b : Board) (i : Nat) (r : Board) :
    solveF (f + 1) none = some none ∧
    (is_solved b = true → solveF (f + 1) (some b) = some (some b)) ∧
    (∀ S b2, solveF f S = some (some b2) → is_solved b2 = true) ∧
    (is_solved b = false →
      solveF (f + 1) (some b) =
        solveLoop f b (least_count b) (possAt b (least_count b)) digits) ∧
    (Shaped9 b → is_solved b = false →
      (∀ j ∈ digits, Possible.is_on (possAt b (least_count b)) j = true →
        branchFails b (least_count b) j) →
      solveF (solveFuel b) (some b) = some none) ∧
    (Shaped9 b → is_solved b = false → i ∈ digits →
      Possible.is_on (possAt b (least_count b)) i = true →
      branchSolves b (least_count b) i r →
      (∀ j ∈ digits, j < i → Possible.is_on (possAt b (least_count b)) j = true →
        branchFails b (least_count b) j) →
      solveF (solveFuel b) (some b) = some (some r)) := by
  refine ⟨rfl, ?_, (solve_output_mutual f).1, ?_, ?_, ?_⟩
  · intro hs
    rw [solveF_succ_some, if_pos hs]
  · intro hs
    rw [solveF_succ_some, if_neg (by rw [hs]; simp)]
  · intro hsh hs hfail
    have hfe : solveFuel b = (11 * totalCount b + 10) + 1 := by
      unfold solveFuel
      omega
    rw [hfe, solveF_succ_some, if_neg (by rw [hs]; simp)]
    refine solveLoop_all_fail digits (11 * totalCount b + 10) b (least_count b)
      (possAt b (least_count b)) hsh (possAt_least_count b) (by rw [digits_length]) hfail
  · intro hsh hs hi hion hsolves hfail
    have hfe : solveFuel b = (11 * totalCount b + 10) + 1 := by
      unfold solveFuel
      omega
    rw [hfe, solveF_succ_some, if_neg (by rw [hs]; simp)]
    refine solveLoop_first_solution digits (11 * totalCount b + 10) b (least_count b)
      (possAt b (least_count b)) i r hsh (possAt_least_count b)
      (by rw [digits_length]) (by decide) hi hion hsolves hfail

/-- C3, witness: the null and solved cases return unchanged, and on the
near-solved grid (cell 80 reopened to `{8,9}`) the search returns the first
(and only) branch's solution. -/
theorem C3_witness :
    solveF 1 none = some none ∧
    solveF 1 (some gridB) = some (some gridB) ∧
    solveF (solveFuel nearGrid) (some nearGrid) = some (some gridB) := by
  have h := C3_solve_structure 0 gridB 8 gridB
  have h2 := C3_solve_structure 0 nearGrid 8 gridB
  refine ⟨h.1, h.2.1 (by decide), ?_⟩
  refine h2.2.2.2.2.2 (shaped9_of_forall_mem (by decide)) (by decide) (by decide) (by decide)
    ⟨gridB, by decide, by decide⟩ ?_
  intro j hj hji hjon
  exfalso
  obtain ⟨hj1, hj9⟩ := (mem_digits j).mp hj
  interval_cases j <;> revert hjon <;> decide

/-- C4: the mutual recursion of `assign`/`eliminate` terminates on every
Board: fuel linear in the total candidate count (`2·total+2` resp.
`2·total+3`) is never exhausted, because each actual elimination (digit
still on) strictly decreases the sum of candidate counts over the cells. -/
theorem C4_propagation_terminates (b : Board) (k v : Nat) :
    eliminateF (2 * totalCount b + 2) b k v ≠ none ∧
    assignF (2 * totalCount b + 3) b k v ≠ none ∧
    (Possible.is_on (Board.cell b k) v = true →
      ∀ f r b1, eliminateF f b k v = some (r, b1) → totalCount b1 < totalCount b) := by
  refine ⟨eliminateF_total b k v, assignF_total b k v, ?_⟩
  intro hon f r b1 h
  exact eliminateF_strict_decrease hon h

/-- C4, witness: a real elimination on the one-cell `{1,2}` board returns
within the fuel bound and strictly decreases the candidate total. -/
theorem C4_witness :
    eliminateF (2 * totalCount oneCell12 + 2) oneCell12 0 1 ≠ none ∧
    totalCount [[false, true, false, false, false, false, false, false, false]] <
      totalCount oneCell12 := by
  have h := C4_propagation_terminates oneCell12 0 1
  exact ⟨h.1, h.2.2 (by decide) 6 false
    [[false, true, false, false, false, false, false, false, false]] (by decide)⟩

/-- C5, counterexample: the claim says `val` returns a sentinel meaning
"undetermined" whenever the count is not 1, but on the count-2 set `{1,2}`
it returns 1 — a legal digit, the same answer as on the determined set
`{1}` — not a sentinel. -/
theorem C5_counterexample :
    Possible.count cell12 = 2 ∧ Possible.val cell12 = 1 ∧
    Possible.count (sing 1) = 1 ∧ Possible.val (sing 1) = 1 := by decide

/-- C5, amended: `val` returns the sentinel `-1` exactly when the count is
0; whenever the count is at least 1 it returns the smallest remaining
digit; in particular when the count is exactly 1 that is the sole remaining
digit. -/
theorem C5_val_characterization (p : Possible) :
    (Possible.count p = 0 → Possible.val p = -1) ∧
    (1 ≤ Possible.count p → ∃ j : Nat, Possible.val p = (j : Int) + 1 ∧
      p.getD j false = true ∧ ∀ i, i < j → p.getD i false = false) ∧
    (Possible.count p = 1 → ∀ d, 1 ≤ d → Possible.is_on p d = true →
      Possible.val p = (d : Int)) := by
  refine ⟨?_, ?_, ?_⟩
  · intro h0
    have hnone : firstTrue p = none :=
      (firstTrue_none_iff p).mpr (count_eq_zero_no_true h0)
    unfold Possible.val
    rw [hnone]
  · intro h1
    obtain ⟨i, hi, hg⟩ := exists_true_of_count_pos p h1
    cases hft : firstTrue p with
    | none =>
      have := (firstTrue_none_iff p).mp hft i
      rw [hg] at this
      exact absurd this (by simp)
    | some j =>
      obtain ⟨hjl, hjg, hjf⟩ := firstTrue_some_spec p j hft
      refine ⟨j, ?_, hjg, hjf⟩
      unfold Possible.val
      rw [hft]
  · intro h1 d hd hon
    have hvn := valN_eq_of_is_on_count_one hd h1 hon
    cases hft : firstTrue p with
    | none =>
      exfalso
      unfold Possible.valN at hvn
      rw [hft] at hvn
      have h0 : (0 : Nat) = d := hvn
      omega
    | some j =>
      unfold Possible.valN at hvn
      rw [hft] at hvn
      have hj : j + 1 = d := hvn
      unfold Possible.val
      rw [hft]
      show (j : Int) + 1 = (d : Int)
      omega

/-- C5, witness: the amended theorem applied to the empty set and to
`{3}`. -/
theorem C5_witness :
    Possible.val (List.replicate 9 false) = -1 ∧ Possible.val (sing 3) = (3 : Int) := by
  have h0 := C5_val_characterization (List.replicate 9 false)
  have h3 := C5_val_characterization (sing 3)
  exact ⟨h0.1 (by decide), (h3.2.2 (by decide) 3 (by decide) (by decide))⟩

/-- C6: `least_count` returns `-1` exactly when every scanned cell has at
most one candidate; otherwise it returns an in-range cell whose count is at
least 2, minimal among such cells, and earlier cells with two or more
candidates have strictly larger counts (lowest-index tie-break). The scan
covers the board's cells — all 81 of them for the 81-cell boards the
program builds. -/
theorem C6_least_count_characterization (b : Board) :
    (least_count b = -1 ↔ ∀ i, i < b.length → Possible.count (Board.cell b i) ≤ 1) ∧
    ∀ kk : Nat, least_count b = (kk : Int) →
      kk < b.length ∧ 2 ≤ Possible.count (Board.cell b kk) ∧
      (∀ i, i < b.length → 2 ≤ Possible.count (Board.cell b i) →
        Possible.count (Board.cell b kk) ≤ Possible.count (Board.cell b i)) ∧
      (∀ i, i < kk → 2 ≤ Possible.count (Board.cell b i) →
        Possible.count (Board.cell b kk) < Possible.count (Board.cell b i)) := by
  constructor
  · constructor
    · intro hm1
      rcases least_count_spec b with ⟨_, hall⟩ | ⟨kk, hq, _, _, _, _⟩
      · exact hall
      · rw [hm1] at hq
        exact absurd hq (by omega)
    · intro hall
      rcases least_count_spec b with ⟨hm1, _⟩ | ⟨kk, hq, hlt, h2, _, _⟩
      · exact hm1
      · have := hall kk hlt
        omega
  · intro kk hkk
    rcases least_count_spec b with ⟨hm1, _⟩ | ⟨kk2, hq, hlt, h2, hmin, hstrict⟩
    · rw [hkk] at hm1
      exact absurd hm1 (by omega)
    · rw [hkk] at hq
      have hkke : kk = kk2 := by omega
      subst hkke
      exact ⟨hlt, h2, hmin, hstrict⟩

/-- C6, witness: on `[{1}, {1,2}, full]` the scan returns cell 1 (count 2,
the minimum above 1), and on `[{1}]` it returns `-1`. -/
theorem C6_witness :
    2 ≤ Possible.count (Board.cell triCell 1) ∧ least_count oneCell1 = -1 := by
  have h := C6_least_count_characterization triCell
  have h2 := C6_least_count_characterization oneCell1
  exact ⟨(h.2 1 (by decide)).2.1, h2.1.mpr (by decide)⟩

/-- C7, counterexample: the claim says a second `eliminate` returns the
same success/failure result as the first. On the one-cell board `{1}`,
eliminating 1 FAILS (count reaches 0) leaving the empty cell; repeating the
call on that state SUCCEEDS (the digit is already off). The board state
agrees, the boolean result does not. -/
theorem C7_counterexample :
    eliminateF 2 oneCell1 0 1 = some (false, deadCell) ∧
    eliminateF 2 deadCell 0 1 = some (true, deadCell) := by decide

/-- C7, amended: after any returning `eliminate(k,v)` call, calling it
again succeeds and changes nothing (so two calls in succession yield the
same board as one, and the same result whenever the first call succeeded);
in particular if the digit is already off, the call succeeds and leaves the
board unchanged. -/
theorem C7_eliminate_idempotent {f g : Nat} {b : Board} {k v : Nat} {r : Bool} {b1 : Board}
    (h : eliminateF f b k v = some (r, b1)) :
    eliminateF (g + 1) b1 k v = some (true, b1) ∧
    (Possible.is_on (Board.cell b k) v = false → r = true ∧ b1 = b) := by
  constructor
  · have hoff : Possible.is_on (Board.cell b1 k) v = false := eliminateF_off h
    show elimCore (eliminateF g) (assignF g) b1 k v = some (true, b1)
    unfold elimCore
    rw [if_neg (by rw [hoff]; simp)]
  · intro hoffb
    cases f with
    | zero => exact absurd h (by simp [eliminateF])
    | succ f2 =>
      have hconv : elimCore (eliminateF f2) (assignF f2) b k v = some (r, b1) := h
      rcases elimCore_some_cases hconv with
        ⟨_, hq⟩ | ⟨hon, _⟩
      · exact ⟨congrArg Prod.fst hq, congrArg Prod.snd hq⟩
      · rw [hon] at hoffb
        exact absurd hoffb (by simp)

/-- C7, witness: the amended theorem applied after the failing first call
of the counterexample, and the no-op clause on the empty cell. -/
theorem C7_witness :
    eliminateF 3 deadCell 0 1 = some (true, deadCell) ∧ deadCell = deadCell := by
  have h := C7_eliminate_idempotent (g := 2)
    (by decide : eliminateF 2 oneCell1 0 1 = some (false, deadCell))
  have h2 := C7_eliminate_idempotent (g := 0)
    (by decide : eliminateF 1 deadCell 0 1 = some (true, deadCell))
  exact ⟨h.1, (h2.2 (by decide)).2⟩

/-- C8: the constructor scan, character by character: a digit `'1'..'9'`
triggers `assign` of that digit at the current cell index (the call
returns, by the termination theorem), advancing the index on success and
aborting with the assign's board on failure; `'0'` and `'.'` only advance
the index; any other character is skipped without advancing. -/
theorem C8_constructor_scan (c : Char) (rest : List Char) (b : Board) (k : Nat) :
    (('1' ≤ c ∧ c ≤ '9') →
      ∃ r b1, assignF (assignFuel b) b k (c.toNat - '0'.toNat) = some (r, b1) ∧
        (r = true → parseChars (c :: rest) b k = parseChars rest b1 (k + 1)) ∧
        (r = false → parseChars (c :: rest) b k = b1)) ∧
    ((c = '0' ∨ c = '.') → parseChars (c :: rest) b k = parseChars rest b (k + 1)) ∧
    (¬('1' ≤ c ∧ c ≤ '9') → ¬(c = '0' ∨ c = '.') →
      parseChars (c :: rest) b k = parseChars rest b k) := by
  refine ⟨?_, fun hb => parseChars_blank rest b k hb,
    fun h1 h2 => parseChars_skip rest b k h1 h2⟩
  intro hc
  cases ha : assignF (assignFuel b) b k (c.toNat - '0'.toNat) with
  | none => exact absurd ha (assignF_total b k _)
  | some q =>
    obtain ⟨r, b1⟩ := q
    refine ⟨r, b1, rfl, ?_, ?_⟩
    · intro hr
      subst hr
      exact parseChars_digit_true rest hc ha
    · intro hr
      subst hr
      exact parseChars_digit_false rest hc ha

/-- C8, witness: a digit character assigns (failing here, so the scan
aborts with the assign's board), a blank advances, a stray character is
skipped. -/
theorem C8_witness :
    parseChars ['2'] oneCell1 0 = deadCell ∧
    parseChars ['0'] oneCell1 0 = oneCell1 ∧
    parseChars [' '] oneCell1 0 = oneCell1 := by
  have h := C8_constructor_scan '2' [] oneCell1 0
  obtain ⟨r, b1, ha, ht, hf⟩ := h.1 (by decide)
  have hcalc : assignF (assignFuel oneCell1) oneCell1 0 ('2'.toNat - '0'.toNat) = some (false, deadCell) := by decide
  rw [hcalc] at ha
  have hr : false = r := congrArg (fun o => (Option.getD o (true, [])).1) ha
  have hb1 : deadCell = b1 := congrArg (fun o => (Option.getD o (true, [])).2) ha
  refine ⟨?_, ?_, ?_⟩
  · rw [← hb1] at hf
    exact hf hr.symm
  · exact (C8_constructor_scan '0' [] oneCell1 0).2.1 (Or.inl rfl)
  · exact (C8_constructor_scan ' ' [] oneCell1 0).2.2 (by decide) (by decide)

/-- C9: if an initial `assign` of a given digit fails (contradictory
givens), construction stops right there: the board at the moment of the
failure is returned as the partially-populated result, and the remaining
characters of the puzzle string are never processed (the C++ also logs
"error" to `cerr`, I/O outside this embedding). -/
theorem C9_construction_abort {c : Char} (rest rest2 : List Char) {b : Board} {k : Nat}
    {b1 : Board} (hc : '1' ≤ c ∧ c ≤ '9')
    (ha : assignF (assignFuel b) b k (c.toNat - '0'.toNat) = some (false, b1)) :
    parseChars (c :: rest) b k = b1 ∧
    parseChars (c :: rest) b k = parseChars (c :: rest2) b k := by
  have h1 := parseChars_digit_false rest hc ha
  have h2 := parseChars_digit_false rest2 hc ha
  exact ⟨h1, h1.trans h2.symm⟩

/-- C9, witness: assigning '2' on the one-cell `{1}` board contradicts;
the scan stops with the failed board and ignores the rest of the string. -/
theorem C9_witness :
    parseChars ['2', 'X', '5'] oneCell1 0 = deadCell ∧
    parseChars ['2', 'X', '5'] oneCell1 0 = parseChars ['2'] oneCell1 0 := by
  have ha : assignF (assignFuel oneCell1) oneCell1 0 ('2'.toNat - '0'.toNat) =
      some (false, deadCell) := by decide
  exact C9_construction_abort ['X', '5'] [] (by decide) ha

/-- C10, counterexample: the claim as stated fails when the cell is already
determined: on `[{1}, full]`, digit 1 is a candidate at cell 0 and
`assign(0,1)` succeeds without changing anything (all eliminations are
no-ops, so no naked-single trigger fires), yet 1 is still a candidate at
cell 1, a peer of cell 0. -/
theorem C10_counterexample :
    Possible.is_on (Board.cell pairB 0) 1 = true ∧
    assignF (assignFuel pairB) pairB 0 1 = some (true, pairB) ∧
    1 ∈ neighborsOf 0 ∧ Possible.is_on (Board.cell pairB 1) 1 = true := by decide

/-- C10, amended: on a well-shaped board, if digit `v` is a candidate at
cell `k` AND some other digit is also still a candidate there, then a
successful `assign(k,v)` leaves cell `k` with exactly the candidate `{v}`
and removes `v` from every neighbor of `k`. -/
theorem C10_assign_postcondition {f : Nat} {b : Board} {k v : Nat} {b1 : Board}
    (hsh : Shaped9 b) (hv : v ∈ digits)
    (hon : Possible.is_on (Board.cell b k) v = true)
    (hother : ∃ w ∈ digits, w ≠ v ∧ Possible.is_on (Board.cell b k) w = true)
    (h : assignF f b k v = some (true, b1)) :
    (∀ d ∈ digits, (Possible.is_on (Board.cell b1 k) d = true ↔ d = v)) ∧
    Possible.count (Board.cell b1 k) = 1 ∧
    ∀ j ∈ neighborsOf k, Possible.is_on (Board.cell b1 j) v = false := by
  have hv1 : 1 ≤ v := one_le_of_mem_digits v hv
  have hvon : Possible.is_on (Board.cell b1 k) v = true :=
    assignF_value_on (hsh k) hon h
  have hoffd : ∀ d, 1 ≤ d → d ≤ 9 → d ≠ v →
      Possible.is_on (Board.cell b1 k) d = false := by
    intro d hd1 hd9 hdv
    exact assignF_off_others h d ((mem_digits d).mpr ⟨hd1, hd9⟩) hdv
  have hsh1 : Shaped9 b1 := hsh.evolves (evolves_assignF h)
  refine ⟨?_, ?_, ?_⟩
  · intro d hd
    obtain ⟨hd1, hd9⟩ := (mem_digits d).mp hd
    constructor
    · intro hond
      by_contra hdv
      rw [hoffd d hd1 hd9 hdv] at hond
      exact absurd hond (by simp)
    · intro hdv
      rw [hdv]
      exact hvon
  · exact (count_one_of_unique (hsh1 k) hv1 hvon hoffd).1
  · have hPb : SolvedCellOk b k v := by
      intro _ hOff
      exfalso
      obtain ⟨w, hwmem, hwv, hwon⟩ := hother
      obtain ⟨hw1, hw9⟩ := (mem_digits w).mp hwmem
      rw [hOff w hw1 hw9 hwv] at hwon
      exact absurd hwon (by simp)
    have hPb1 : SolvedCellOk b1 k v := (solvedok_mutual f).2 b k v b1 hsh h k v hv1 hPb
    exact hPb1 hvon hoffd

/-- C10, witness: the amended theorem on the grid with cell 0 reopened to
`{1,2}`: assigning 1 succeeds, pins cell 0 to `{1}`, and 1 is off at all
24 neighbor entries of cell 0. -/
theorem C10_witness :
    (∀ d ∈ digits, (Possible.is_on (Board.cell gridB 0) d = true ↔ d = 1)) ∧
    Possible.count (Board.cell gridB 0) = 1 ∧
    ∀ j ∈ neighborsOf 0, Possible.is_on (Board.cell gridB j) 1 = false :=
  C10_assign_postcondition (f := assignFuel gridB2) (b := gridB2)
    (shaped9_of_forall_mem (by decide)) (by decide) (by decide)
    ⟨2, by decide, by decide, by decide⟩ (by decide)

end Sudoku2
